import Mathlib

/-!
Verification of the `rs-Foundation` production-planner core (`src/json.rs`,
`src/solver.rs`) against its natural-language specification.

Rust `HashMap`s are modelled as association lists whose keys stay unique
(`insertA` replaces an existing binding); iteration order is insertion order,
a determinization of the hash map's arbitrary order.  `f64` quantities are
modelled as rationals (`ℚ`); `f64::MAX` becomes the exact rational value
`fMax`.  Recursive procedures of the source are given explicit fuel.
-/

namespace Foundation

/-! ### Association-list operations modelling Rust `HashMap` -/

def lookupA {α : Type} : List (String × α) → String → Option α
  | [], _ => none
  | kv :: rest, k => if kv.1 = k then some kv.2 else lookupA rest k

def containsKey {α : Type} (l : List (String × α)) (k : String) : Bool :=
  (lookupA l k).isSome

/-- Rust `HashMap::insert`: replaces the binding when the key is present,
otherwise appends a fresh binding. -/
def insertA {α : Type} : List (String × α) → String → α → List (String × α)
  | [], k, v => [(k, v)]
  | kv :: rest, k, v => if kv.1 = k then (k, v) :: rest else kv :: insertA rest k v

/-- Rust `HashMap::remove`. -/
def eraseA {α : Type} (l : List (String × α)) (k : String) : List (String × α) :=
  l.filter (fun kv => ¬ kv.1 = k)

/-- In-place update of the value bound to `k` (Rust `get_mut` followed by a
mutation). -/
def modifyA {α : Type} (l : List (String × α)) (k : String) (f : α → α) : List (String × α) :=
  l.map (fun kv => if kv.1 = k then (kv.1, f kv.2) else kv)

/-- `String::starts_with`, computed structurally on the character lists. -/
def strStartsWith (s p : String) : Bool :=
  p.data.isPrefixOf s.data

/-! ### Data model (`src/json.rs`) -/

structure ItemQuantity where
  item : String
  amount : ℚ
  deriving DecidableEq, Repr

structure Recipe where
  name : String
  className : String
  alternate : Bool
  time : ℚ
  forBuilding : Bool
  ingredients : List ItemQuantity
  products : List ItemQuantity
  producedIn : List String
  deriving DecidableEq, Repr

structure Item where
  name : String
  deriving DecidableEq, Repr

structure CatalogResource where
  name : String
  deriving DecidableEq, Repr

structure GameData where
  recipes : List (String × Recipe)
  items : List (String × Item)
  resources : List (String × CatalogResource)
  deriving DecidableEq, Repr

def GameData.getIngredients (d : GameData) (recipeId : String) : List String :=
  match lookupA d.recipes recipeId with
  | some r => r.ingredients.map (·.item)
  | none => []

def GameData.getProducts (d : GameData) (recipeId : String) : List String :=
  match lookupA d.recipes recipeId with
  | some r => r.products.map (·.item)
  | none => []

/-- `GameData::get_item_creators`: walk the (non-disallowed) recipe keys and
push the recipe id once per product entry matching the item. -/
def GameData.getItemCreators (d : GameData) (itemId : String)
    (disallowed : List String) : List String :=
  ((d.recipes.map Prod.fst).filter (fun rid => ¬ rid ∈ disallowed)).flatMap
    (fun rid => ((d.getProducts rid).filter (fun p => p = itemId)).map (fun _ => rid))

/-- `GameData::get_item_users`. -/
def GameData.getItemUsers (d : GameData) (itemId : String)
    (disallowed : List String) : List String :=
  ((d.recipes.map Prod.fst).filter (fun rid => ¬ rid ∈ disallowed)).flatMap
    (fun rid => ((d.getIngredients rid).filter (fun p => p = itemId)).map (fun _ => rid))

/-! ### Solver data model (`src/solver.rs`) -/

structure Resource where
  limit : ℚ
  weight : ℚ
  deriving DecidableEq, Repr

/-- Exact value of `f64::MAX` as a rational. -/
def fMax : ℚ := 2 ^ 971 * (2 ^ 53 - 1)

/-- `Solver::is_feasible`. -/
def isFeasible (d : GameData) (res : List (String × Resource))
    (disallowed : List String) (recipeId : String) : Bool :=
  (d.getIngredients recipeId).all
    (fun ing => containsKey res ing || !(d.getItemCreators ing disallowed).isEmpty)

/-! ### LP problem model (the `minilp` interface used by the solver) -/

structure LPVar where
  weight : ℚ
  lo : ℚ
  hi : ℚ
  deriving DecidableEq, Repr

inductive CompOp where
  | le
  | eq
  | ge
  deriving DecidableEq, Repr

structure Constraint where
  lhs : List (Nat × ℚ)
  op : CompOp
  rhs : ℚ
  deriving DecidableEq, Repr

structure Problem where
  vars : List LPVar
  constraints : List Constraint
  deriving DecidableEq, Repr

/-- `Problem::add_var`: registers a variable (objective weight and bounds) and
returns its index. -/
def Problem.addVar (p : Problem) (weight lo hi : ℚ) : Problem × Nat :=
  ({ p with vars := p.vars ++ [⟨weight, lo, hi⟩] }, p.vars.length)

def Problem.addConstraint (p : Problem) (lhs : List (Nat × ℚ)) (op : CompOp)
    (rhs : ℚ) : Problem :=
  { p with constraints := p.constraints ++ [⟨lhs, op, rhs⟩] }

/-! ### Links (`Link`, `LinkSet`) -/

structure Link where
  item : String
  destination : String
  varId : Nat
  deriving DecidableEq, Repr

/-- The `links: HashMap<String, Vec<Link>>` of `LinkSet`, with the shared
push-or-insert pattern of `add_simple_variable` / `add_weighted_variable` /
`add_resource_variable`. -/
def addLinkTo : List (String × List Link) → String → Link → List (String × List Link)
  | [], source, link => [(source, [link])]
  | kv :: rest, source, link =>
      if kv.1 = source then (kv.1, kv.2 ++ [link]) :: rest
      else kv :: addLinkTo rest source link

structure BuildSt where
  problem : Problem
  links : List (String × List Link)
  deriving DecidableEq, Repr

/-- `LinkSet::add_simple_variable` (weight `1.0`, bounds `(0.0, f64::MAX)`). -/
def addSimpleVariable (source destination item : String) (st : BuildSt) : BuildSt :=
  let pv := st.problem.addVar 1 0 fMax
  ⟨pv.1, addLinkTo st.links source ⟨item, destination, pv.2⟩⟩

/-- `LinkSet::add_weighted_variable`. -/
def addWeightedVariable (source destination item : String) (weight : ℚ)
    (st : BuildSt) : BuildSt :=
  let pv := st.problem.addVar weight 0 fMax
  ⟨pv.1, addLinkTo st.links source ⟨item, destination, pv.2⟩⟩

/-- `LinkSet::add_resource_variable`: bounds `(0.0, limit)`, weight the
resource's weight, and the link is keyed by the *item*, not the caller's
source. -/
def addResourceVariable (resource : Resource) (destination item : String)
    (st : BuildSt) : BuildSt :=
  let pv := st.problem.addVar resource.weight 0 resource.limit
  ⟨pv.1, addLinkTo st.links item ⟨item, destination, pv.2⟩⟩

/-- `LinkSet::get_incoming_for_item`: scan every bucket. -/
def getIncomingForItem (ls : List (String × List Link)) (destination item : String) :
    List Link :=
  (ls.flatMap (·.2)).filter (fun l => l.destination = destination ∧ l.item = item)

/-- `LinkSet::get_outgoing_for_item`: scan the source's own bucket. -/
def getOutgoingForItem (ls : List (String × List Link)) (source item : String) :
    List Link :=
  ((lookupA ls source).getD []).filter (fun l => l.item = item)

/-! ### Solver configuration (`Solver::new` and the `pub` configuration methods) -/

structure Solver where
  data : GameData
  resources : List (String × Resource)
  disallowedRecipes : List String
  preservedRecipes : List String
  byproductCoefficient : ℚ
  targets : List (String × ℚ)
  deriving DecidableEq, Repr

def defaultResources : List (String × Resource) :=
  [("Desc_Coal_C", ⟨30120, 10⟩), ("Desc_LiquidOil_C", ⟨11700, 25⟩),
   ("Desc_NitrogenGas_C", ⟨12000, 50⟩), ("Desc_OreBauxite_C", ⟨9780, 50⟩),
   ("Desc_OreCopper_C", ⟨28860, 10⟩), ("Desc_OreGold_C", ⟨11040, 25⟩),
   ("Desc_OreIron_C", ⟨70380, 10⟩), ("Desc_OreUranium_C", ⟨2100, 100⟩),
   ("Desc_RawQuartz_C", ⟨10500, 50⟩), ("Desc_Stone_C", ⟨52860, 10⟩),
   ("Desc_Sulfur_C", ⟨6840, 50⟩), ("Desc_Water_C", ⟨fMax, 1⟩)]

def Solver.new (data : GameData) (targets : List (String × ℚ)) : Solver :=
  ⟨data, defaultResources, [], [], 1000, targets⟩

/-- `Solver::add_resource`: stores `Resource { limit: amount, weight: 0.0 }`. -/
def Solver.addResource (s : Solver) (resource : String) (amount : ℚ) : Solver :=
  { s with resources := insertA s.resources resource ⟨amount, 0⟩ }

/-- `HashSet::insert`. -/
def insertS (x : String) (l : List String) : List String :=
  if x ∈ l then l else x :: l

def Solver.removeRecipe (s : Solver) (recipeId : String) : Solver :=
  { s with disallowedRecipes := insertS recipeId s.disallowedRecipes }

def Solver.preserveRecipe (s : Solver) (recipeId : String) : Solver :=
  { s with preservedRecipes := insertS recipeId s.preservedRecipes }

def removeAlternatesStep (preserved : List String) (dis : List String)
    (kv : String × Recipe) : List String :=
  if kv.2.alternate ∧ ¬ kv.2.className ∈ preserved then insertS kv.2.className dis
  else dis

def Solver.removeAlternates (s : Solver) : Solver :=
  { s with disallowedRecipes :=
      s.data.recipes.foldl (removeAlternatesStep s.preservedRecipes) s.disallowedRecipes }

/-! ### Pruning (`Solver::trim_parents` and the scan in `Solver::solve`) -/

/-- Inner loop of `trim_parents`: sweep a snapshot of the users of one
product, disallowing and recursively trimming each one found infeasible.
`tp` is the recursive `trim_parents` call. -/
def goUsers (d : GameData) (res : List (String × Resource))
    (tp : List String → String → List String) :
    List String → List String → List String
  | dis, [] => dis
  | dis, p :: rest =>
      if isFeasible d res dis p then goUsers d res tp dis rest
      else goUsers d res tp (tp (insertS p dis) p) rest

/-- Outer loop of `trim_parents`: for every product of the just-disallowed
recipe, sweep that product's users (snapshot taken at the current state). -/
def goProducts (d : GameData) (res : List (String × Resource))
    (tp : List String → String → List String) :
    List String → List String → List String
  | dis, [] => dis
  | dis, i :: rest => goProducts d res tp (goUsers d res tp dis (d.getItemUsers i dis)) rest

/-- `Solver::trim_parents`, with explicit fuel bounding the recursion depth
(the Rust recursion's depth is bounded by the number of catalog recipes). -/
def trimParents (d : GameData) (res : List (String × Resource)) :
    Nat → List String → String → List String
  | 0, dis, _ => dis
  | fuel + 1, dis, rid => goProducts d res (trimParents d res fuel) dis (d.getProducts rid)

def pruneFuel (d : GameData) : Nat := d.recipes.length + 1

/-- The pruning phase at the start of `Solver::solve` (lines 208-217): collect
the recipes infeasible in the starting state, then disallow each and
back-propagate with `trim_parents`. -/
def pruneAll (d : GameData) (res : List (String × Resource))
    (dis0 : List String) : List String :=
  let infeasibleRecipes :=
    ((d.recipes.map Prod.fst).filter (fun rid => ¬ rid ∈ dis0)).filter
      (fun rid => !isFeasible d res dis0 rid)
  infeasibleRecipes.foldl
    (fun dis rid => trimParents d res (pruneFuel d) (insertS rid dis) rid) dis0

/-! ### Basic lemmas about the map operations -/

theorem lookupA_eq_some_mem {α : Type} {l : List (String × α)} {k : String} {v : α}
    (h : lookupA l k = some v) : (k, v) ∈ l := by
  induction l with
  | nil => simp [lookupA] at h
  | cons kv rest ih =>
    obtain ⟨k0, v0⟩ := kv
    by_cases hk : k0 = k
    · simp [lookupA, hk] at h
      subst hk
      subst h
      exact List.mem_cons_self _ _
    · simp [lookupA, hk] at h
      exact List.mem_cons_of_mem _ (ih h)

theorem containsKey_iff {α : Type} {l : List (String × α)} {k : String} :
    containsKey l k = true ↔ ∃ v, lookupA l k = some v := by
  simp [containsKey, Option.isSome_iff_exists]

/-! ### C2: `is_feasible` characterisation -/

theorem mem_getItemCreators {d : GameData} {i : String} {dis : List String} {rid : String} :
    rid ∈ d.getItemCreators i dis ↔
      rid ∈ d.recipes.map Prod.fst ∧ rid ∉ dis ∧ i ∈ d.getProducts rid := by
  simp only [GameData.getItemCreators, List.mem_flatMap, List.mem_filter, List.mem_map,
    decide_eq_true_eq]
  constructor
  · rintro ⟨r, ⟨hr, hdis⟩, p, ⟨hp, rfl⟩, rfl⟩
    exact ⟨hr, hdis, hp⟩
  · rintro ⟨hr, hdis, hp⟩
    exact ⟨rid, ⟨hr, hdis⟩, i, ⟨hp, rfl⟩, rfl⟩

theorem mem_getItemUsers {d : GameData} {i : String} {dis : List String} {rid : String} :
    rid ∈ d.getItemUsers i dis ↔
      rid ∈ d.recipes.map Prod.fst ∧ rid ∉ dis ∧ i ∈ d.getIngredients rid := by
  simp only [GameData.getItemUsers, List.mem_flatMap, List.mem_filter, List.mem_map,
    decide_eq_true_eq]
  constructor
  · rintro ⟨r, ⟨hr, hdis⟩, p, ⟨hp, rfl⟩, rfl⟩
    exact ⟨hr, hdis, hp⟩
  · rintro ⟨hr, hdis, hp⟩
    exact ⟨rid, ⟨hr, hdis⟩, i, ⟨hp, rfl⟩, rfl⟩

/-- C2: for a recipe present in the catalog, `is_feasible` returns `true`
iff every ingredient is either a key of the solver's resources map or has at
least one producer recipe outside the disallowed set. -/
theorem isFeasible_iff (d : GameData) (res : List (String × Resource))
    (dis : List String) (rid : String) (r : Recipe)
    (h : lookupA d.recipes rid = some r) :
    isFeasible d res dis rid = true ↔
      ∀ iq ∈ r.ingredients,
        containsKey res iq.item = true ∨ d.getItemCreators iq.item dis ≠ [] := by
  simp only [isFeasible, GameData.getIngredients, h, List.all_eq_true, List.mem_map,
    Bool.or_eq_true, Bool.not_eq_true']
  constructor
  · intro hall iq hiq
    rcases hall iq.item ⟨iq, hiq, rfl⟩ with hres | hempty
    · exact Or.inl hres
    · right
      intro hnil
      rw [hnil] at hempty
      simp [List.isEmpty] at hempty
  · rintro hall i ⟨iq, hiq, rfl⟩
    rcases hall iq hiq with hres | hne
    · exact Or.inl hres
    · right
      cases hcre : d.getItemCreators iq.item dis with
      | nil => exact absurd hcre hne
      | cons a l => simp [List.isEmpty]

/-- Witness data: a concrete one-recipe catalog. -/
def wRecipeA : Recipe :=
  ⟨"A", "Recipe_A", false, 2, false, [⟨"Desc_Ore", 1⟩], [⟨"Desc_A", 2⟩], []⟩

def wData : GameData :=
  ⟨[("Recipe_A", wRecipeA)],
   [("Desc_A", ⟨"A item"⟩), ("Desc_Ore", ⟨"Ore"⟩)],
   [("Desc_Ore", ⟨"Ore"⟩)]⟩

def wRes : List (String × Resource) := [("Desc_Ore", ⟨100, 10⟩)]

theorem isFeasible_iff_witness :
    lookupA wData.recipes "Recipe_A" = some wRecipeA ∧
    (isFeasible wData wRes [] "Recipe_A" = true ↔
      ∀ iq ∈ wRecipeA.ingredients,
        containsKey wRes iq.item = true ∨ wData.getItemCreators iq.item [] ≠ []) :=
  ⟨by decide, isFeasible_iff wData wRes [] "Recipe_A" _ (by decide)⟩

/-! ### Lemmas for the pruning fixed point (C4) -/

theorem mem_insertS_self (x : String) (l : List String) : x ∈ insertS x l := by
  unfold insertS
  by_cases h : x ∈ l <;> simp [h]

theorem subset_insertS (x : String) (l : List String) : l ⊆ insertS x l := by
  unfold insertS
  by_cases h : x ∈ l <;> simp [h, List.subset_cons_self]

theorem mem_of_mem_insertS {x y : String} {l : List String} (h : y ∈ insertS x l) :
    y ∈ l ∨ y = x := by
  unfold insertS at h
  by_cases hx : x ∈ l
  · simp [hx] at h
    exact Or.inl h
  · simp [hx] at h
    rcases h with h | h
    · exact Or.inr h
    · exact Or.inl h

/-- A recipe is infeasible iff some ingredient is neither a resource key nor
currently produced by an allowed recipe. -/
theorem isFeasible_eq_false_iff {d : GameData} {res : List (String × Resource)}
    {dis : List String} {rid : String} :
    isFeasible d res dis rid = false ↔
      ∃ i ∈ d.getIngredients rid,
        containsKey res i = false ∧ d.getItemCreators i dis = [] := by
  unfold isFeasible
  rw [← Bool.not_eq_true, List.all_eq_true]
  constructor
  · intro h
    push_neg at h
    obtain ⟨i, hi, hfalse⟩ := h
    refine ⟨i, hi, ?_, ?_⟩
    · cases hres : containsKey res i
      · rfl
      · rw [hres] at hfalse
        simp at hfalse
    · cases hcre : d.getItemCreators i dis
      · rfl
      · rw [hcre] at hfalse
        simp [List.isEmpty] at hfalse
  · rintro ⟨i, hi, hres, hcre⟩ hall
    have := hall i hi
    rw [hres, hcre] at this
    simp [List.isEmpty] at this

theorem getItemCreators_nil_mono {d : GameData} {i : String} {dis dis1 : List String}
    (hsub : dis ⊆ dis1) (hnil : d.getItemCreators i dis = []) :
    d.getItemCreators i dis1 = [] := by
  rw [List.eq_nil_iff_forall_not_mem] at hnil ⊢
  intro c hc
  rw [mem_getItemCreators] at hc
  exact hnil c (mem_getItemCreators.mpr ⟨hc.1, fun hmem => hc.2.1 (hsub hmem), hc.2.2⟩)

theorem isFeasible_false_mono {d : GameData} {res : List (String × Resource)}
    {dis dis1 : List String} {rid : String} (hsub : dis ⊆ dis1)
    (h : isFeasible d res dis rid = false) : isFeasible d res dis1 rid = false := by
  rw [isFeasible_eq_false_iff] at h ⊢
  obtain ⟨i, hi, hres, hcre⟩ := h
  exact ⟨i, hi, hres, getItemCreators_nil_mono hsub hcre⟩

/-- When the creators of `i` are wiped out by growing `dis` to `dis1`, and the
only possibly-new member of `dis1` is `p`, then `i` is one of `p`'s products. -/
theorem creator_killed {d : GameData} {i p : String} {dis dis1 : List String}
    (hins : ∀ c, c ∈ dis1 → c ∈ dis ∨ c = p)
    (hne : d.getItemCreators i dis ≠ [])
    (hnil : d.getItemCreators i dis1 = []) : i ∈ d.getProducts p := by
  obtain ⟨c, hc⟩ := List.exists_mem_of_ne_nil _ hne
  rw [mem_getItemCreators] at hc
  obtain ⟨hckeys, hcdis, hcprod⟩ := hc
  rw [List.eq_nil_iff_forall_not_mem] at hnil
  have hcdis1 : c ∈ dis1 := by
    by_contra hcon
    exact hnil c (mem_getItemCreators.mpr ⟨hckeys, hcon, hcprod⟩)
  rcases hins c hcdis1 with h | h
  · exact absurd h hcdis
  · rw [← h]
    exact hcprod

/-! The measure: number of catalog recipes still allowed. -/

def mu (d : GameData) (dis : List String) : Nat :=
  ((d.recipes.map Prod.fst).toFinset.filter (fun r => r ∉ dis)).card

theorem mu_antitone {d : GameData} {dis dis1 : List String} (hsub : dis ⊆ dis1) :
    mu d dis1 ≤ mu d dis := by
  apply Finset.card_le_card
  intro x hx
  rw [Finset.mem_filter] at hx ⊢
  exact ⟨hx.1, fun hmem => hx.2 (hsub hmem)⟩

theorem mu_insert_lt {d : GameData} {dis : List String} {r : String}
    (hkeys : r ∈ d.recipes.map Prod.fst) (hdis : r ∉ dis) :
    mu d (insertS r dis) < mu d dis := by
  apply Finset.card_lt_card
  constructor
  · intro x hx
    rw [Finset.mem_filter] at hx ⊢
    exact ⟨hx.1, fun hmem => hx.2 (subset_insertS r dis hmem)⟩
  · intro hcon
    have hr : r ∈ (d.recipes.map Prod.fst).toFinset.filter (fun x => x ∉ dis) := by
      rw [Finset.mem_filter]
      exact ⟨List.mem_toFinset.mpr hkeys, hdis⟩
    have := hcon hr
    rw [Finset.mem_filter] at this
    exact this.2 (mem_insertS_self r dis)

theorem mu_le_pruneBound (d : GameData) (dis : List String) :
    mu d dis < pruneFuel d := by
  unfold mu pruneFuel
  calc ((d.recipes.map Prod.fst).toFinset.filter (fun r => r ∉ dis)).card
      ≤ (d.recipes.map Prod.fst).toFinset.card := Finset.card_filter_le _ _
    _ ≤ (d.recipes.map Prod.fst).length := (d.recipes.map Prod.fst).toFinset_card_le
    _ = d.recipes.length := List.length_map _ _
    _ < d.recipes.length + 1 := Nat.lt_succ_self _

/-! Subset lemmas: trimming only grows the disallowed set. -/

theorem goUsers_subset {d : GameData} {res : List (String × Resource)}
    {tp : List String → String → List String}
    (hsub : ∀ s p, s ⊆ tp s p) :
    ∀ (l dis : List String), dis ⊆ goUsers d res tp dis l := by
  intro l
  induction l with
  | nil => intro dis; simp [goUsers]
  | cons p rest ih =>
    intro dis
    unfold goUsers
    by_cases h : isFeasible d res dis p
    · simp only [h, if_true]
      exact ih dis
    · simp only [h, if_false]
      intro x hx
      exact ih _ (hsub _ p (subset_insertS p dis hx))

theorem goProducts_subset {d : GameData} {res : List (String × Resource)}
    {tp : List String → String → List String}
    (hsub : ∀ s p, s ⊆ tp s p) :
    ∀ (prods dis : List String), dis ⊆ goProducts d res tp dis prods := by
  intro prods
  induction prods with
  | nil => intro dis; simp [goProducts]
  | cons i rest ih =>
    intro dis
    unfold goProducts
    intro x hx
    exact ih _ (goUsers_subset hsub _ dis hx)

theorem trimParents_subset (d : GameData) (res : List (String × Resource)) :
    ∀ (fuel : Nat) (dis : List String) (rid : String),
      dis ⊆ trimParents d res fuel dis rid := by
  intro fuel
  induction fuel with
  | zero => intro dis rid; simp [trimParents]
  | succ n ih =>
    intro dis rid
    unfold trimParents
    exact goProducts_subset (fun s p => ih s p) _ dis

/-! Coverage invariant for the backward propagation. -/

/-- Every still-allowed infeasible catalog recipe either has an infeasibility
witness ingredient in the pending work list `W` (an item whose users are yet
to be swept), or is excused in `E` (it sits in a snapshot an enclosing sweep
will still visit). -/
def CovE (d : GameData) (res : List (String × Resource))
    (dis W E : List String) : Prop :=
  ∀ r ∈ d.recipes.map Prod.fst, r ∉ dis → isFeasible d res dis r = false →
    (∃ i ∈ d.getIngredients r,
        containsKey res i = false ∧ d.getItemCreators i dis = [] ∧ i ∈ W) ∨ r ∈ E

theorem creators_ne_nil_of_feasible {d : GameData} {res : List (String × Resource)}
    {dis : List String} {r i : String}
    (hf : isFeasible d res dis r = true) (hi : i ∈ d.getIngredients r)
    (hres : containsKey res i = false) : d.getItemCreators i dis ≠ [] := by
  unfold isFeasible at hf
  rw [List.all_eq_true] at hf
  have h := hf i hi
  rw [hres] at h
  simp only [Bool.false_or, Bool.not_eq_true'] at h
  intro hnil
  rw [hnil] at h
  simp [List.isEmpty] at h

/-- Disallowing `p` keeps every covered recipe covered once `p`'s products
join the pending work, and freshly infeasible recipes are covered by one of
`p`'s products. -/
theorem CovE_insert {d : GameData} {res : List (String × Resource)}
    {dis W E : List String} {p : String}
    (hcov : CovE d res dis W (p :: E)) :
    CovE d res (insertS p dis) (d.getProducts p ++ W) E := by
  intro r hrkeys hrdis1 hrinf1
  have hrdis : r ∉ dis := fun h => hrdis1 (subset_insertS p dis h)
  have hrp : r ≠ p := fun h => hrdis1 (h ▸ mem_insertS_self p dis)
  cases hinf : isFeasible d res dis r with
  | false =>
    rcases hcov r hrkeys hrdis hinf with ⟨i, hi, hres, hcre, hiW⟩ | hE
    · exact Or.inl ⟨i, hi, hres,
        getItemCreators_nil_mono (subset_insertS p dis) hcre,
        List.mem_append_right _ hiW⟩
    · cases hE with
      | head => exact absurd rfl hrp
      | tail _ hE => exact Or.inr hE
  | true =>
    rw [isFeasible_eq_false_iff] at hrinf1
    obtain ⟨i, hi, hres, hcre1⟩ := hrinf1
    have hne : d.getItemCreators i dis ≠ [] := creators_ne_nil_of_feasible hinf hi hres
    have hip : i ∈ d.getProducts p :=
      creator_killed (fun c hc => mem_of_mem_insertS hc) hne hcre1
    exact Or.inl ⟨i, hi, hres, hcre1, List.mem_append_left _ hip⟩

/-- Sweeping a users snapshot discharges every recipe excused by membership
in that snapshot, while maintaining coverage. -/
theorem goUsers_spec {d : GameData} {res : List (String × Resource)}
    {tp : List String → String → List String} {fuel B : Nat}
    (hsub : ∀ s p, s ⊆ tp s p)
    (htp : ∀ s p W E, mu d s < fuel →
      CovE d res s (d.getProducts p ++ W) E → CovE d res (tp s p) W E)
    (hBfuel : B ≤ fuel) :
    ∀ (l dis W E : List String),
      (∀ p ∈ l, p ∈ d.recipes.map Prod.fst) →
      (∀ p ∈ l, p ∈ dis → mu d dis < B) →
      mu d dis ≤ B →
      CovE d res dis W (l ++ E) →
      CovE d res (goUsers d res tp dis l) W E := by
  intro l
  induction l with
  | nil =>
    intro dis W E _ _ _ hcov
    simpa [goUsers] using hcov
  | cons p rest ih =>
    intro dis W E hkeys hstale hmu hcov
    unfold goUsers
    by_cases hfeas : isFeasible d res dis p = true
    · simp only [hfeas, if_true]
      refine ih dis W E (fun q hq => hkeys q (List.mem_cons_of_mem p hq))
        (fun q hq => hstale q (List.mem_cons_of_mem p hq)) hmu ?_
      intro r hrkeys hrdis hrinf
      rcases hcov r hrkeys hrdis hrinf with hwit | hE
      · exact Or.inl hwit
      · cases hE with
        | head =>
          rw [hrinf] at hfeas
          exact absurd hfeas (by simp)
        | tail _ hE => exact Or.inr hE
    · rw [Bool.not_eq_true] at hfeas
      simp only [hfeas, Bool.false_eq_true, if_false]
      have hcov1 : CovE d res (insertS p dis) (d.getProducts p ++ W) (rest ++ E) :=
        CovE_insert hcov
      by_cases hp : p ∈ dis
      · have hmustale : mu d dis < B := hstale p (List.mem_cons_self p rest) hp
        have hins : insertS p dis = dis := by unfold insertS; simp [hp]
        rw [hins] at hcov1 ⊢
        have hcov2 := htp dis p W (rest ++ E) (lt_of_lt_of_le hmustale hBfuel) hcov1
        refine ih (tp dis p) W E (fun q hq => hkeys q (List.mem_cons_of_mem p hq))
          (fun q hq _ => lt_of_le_of_lt (mu_antitone (hsub dis p)) hmustale)
          (le_of_lt (lt_of_le_of_lt (mu_antitone (hsub dis p)) hmustale)) hcov2
      · have hmu1 : mu d (insertS p dis) < mu d dis :=
          mu_insert_lt (hkeys p (List.mem_cons_self p rest)) hp
        have hmu1B : mu d (insertS p dis) < B := lt_of_lt_of_le hmu1 hmu
        have hcov2 := htp (insertS p dis) p W (rest ++ E)
          (lt_of_lt_of_le hmu1B hBfuel) hcov1
        have hsub2 : dis ⊆ tp (insertS p dis) p :=
          fun x hx => hsub _ p (subset_insertS p dis hx)
        have hmu2 : mu d (tp (insertS p dis) p) < B :=
          lt_of_le_of_lt (mu_antitone (hsub _ p)) hmu1B
        refine ih (tp (insertS p dis) p) W E
          (fun q hq => hkeys q (List.mem_cons_of_mem p hq))
          (fun q hq _ => hmu2) (le_of_lt hmu2) hcov2

/-- Processing the product list of a disallowed recipe converts the pending
work items into swept snapshots. -/
theorem goProducts_spec {d : GameData} {res : List (String × Resource)}
    {tp : List String → String → List String} {fuel B : Nat}
    (hsub : ∀ s p, s ⊆ tp s p)
    (htp : ∀ s p W E, mu d s < fuel →
      CovE d res s (d.getProducts p ++ W) E → CovE d res (tp s p) W E)
    (hBfuel : B ≤ fuel) :
    ∀ (prods dis W E : List String),
      mu d dis ≤ B →
      CovE d res dis (prods ++ W) E →
      CovE d res (goProducts d res tp dis prods) W E := by
  intro prods
  induction prods with
  | nil =>
    intro dis W E _ hcov
    simpa [goProducts] using hcov
  | cons i rest ih =>
    intro dis W E hmu hcov
    unfold goProducts
    have hcov1 : CovE d res dis (rest ++ W) (d.getItemUsers i dis ++ E) := by
      intro r hrkeys hrdis hrinf
      rcases hcov r hrkeys hrdis hrinf with ⟨j, hj, hres, hcre, hjW⟩ | hE
      · cases hjW with
        | head =>
          exact Or.inr (List.mem_append_left _
            (mem_getItemUsers.mpr ⟨hrkeys, hrdis, hj⟩))
        | tail _ hjW => exact Or.inl ⟨j, hj, hres, hcre, hjW⟩
      · exact Or.inr (List.mem_append_right _ hE)
    have h1 := goUsers_spec hsub htp hBfuel (d.getItemUsers i dis) dis (rest ++ W) E
      (fun p hp => (mem_getItemUsers.mp hp).1)
      (fun p hp hpdis => absurd hpdis (mem_getItemUsers.mp hp).2.1)
      hmu hcov1
    exact ih _ W E
      (le_trans (mu_antitone (goUsers_subset hsub _ dis)) hmu) h1

/-- Main postcondition of `trim_parents`: given enough fuel, pending coverage
through the trimmed recipe's products is discharged. -/
theorem trimParents_spec (d : GameData) (res : List (String × Resource)) :
    ∀ (fuel : Nat) (dis : List String) (rid : String) (W E : List String),
      mu d dis < fuel →
      CovE d res dis (d.getProducts rid ++ W) E →
      CovE d res (trimParents d res fuel dis rid) W E := by
  intro fuel
  induction fuel with
  | zero =>
    intro dis rid W E hmu
    exact absurd hmu (Nat.not_lt_zero _)
  | succ n ih =>
    intro dis rid W E hmu hcov
    unfold trimParents
    exact goProducts_spec (trimParents_subset d res n)
      (fun s p W' E' h hc => ih s p W' E' h hc)
      (Nat.lt_succ_iff.mp hmu)
      (d.getProducts rid) dis W E le_rfl hcov

theorem pruneFold_spec (d : GameData) (res : List (String × Resource)) :
    ∀ (todo dis : List String),
      CovE d res dis [] todo →
      CovE d res
        (todo.foldl (fun dis rid => trimParents d res (pruneFuel d) (insertS rid dis) rid) dis)
        [] [] := by
  intro todo
  induction todo with
  | nil => intro dis h; simpa using h
  | cons r rest ih =>
    intro dis hcov
    simp only [List.foldl_cons]
    apply ih
    exact trimParents_spec d res (pruneFuel d) (insertS r dis) r [] rest
      (mu_le_pruneBound d _) (CovE_insert hcov)

theorem pruneAll_init_cov (d : GameData) (res : List (String × Resource))
    (dis0 : List String) :
    CovE d res dis0 []
      (((d.recipes.map Prod.fst).filter (fun rid => ¬ rid ∈ dis0)).filter
        (fun rid => !isFeasible d res dis0 rid)) := by
  intro r hrkeys hrdis hrinf
  right
  rw [List.mem_filter, List.mem_filter]
  refine ⟨⟨hrkeys, ?_⟩, ?_⟩
  · simpa using hrdis
  · simp [hrinf]

/-- C4: the pruning phase of `solve` (initial infeasibility scan followed by
`trim_parents` back-propagation) reaches a fixed point: every catalog recipe
left outside the final disallowed set is feasible with respect to that final
set — equivalently, every recipe missing a producer for some non-resource
ingredient, and transitively every consumer left without an alternative
producer, has been disallowed. -/
theorem pruneAll_fixed_point (d : GameData) (res : List (String × Resource))
    (dis0 : List String) (r : String) (hr : r ∈ d.recipes.map Prod.fst)
    (hallow : r ∉ pruneAll d res dis0) :
    isFeasible d res (pruneAll d res dis0) r = true := by
  have h := pruneFold_spec d res
    (((d.recipes.map Prod.fst).filter (fun rid => ¬ rid ∈ dis0)).filter
      (fun rid => !isFeasible d res dis0 rid)) dis0
    (pruneAll_init_cov d res dis0)
  cases hf : isFeasible d res (pruneAll d res dis0) r with
  | true => rfl
  | false =>
    unfold pruneAll at hallow hf
    rcases h r hr hallow hf with ⟨i, _, _, _, hiW⟩ | hE
    · exact absurd hiW (List.not_mem_nil i)
    · exact absurd hE (List.not_mem_nil r)

/-- Witness for `pruneAll_fixed_point` on the concrete catalog. -/
theorem pruneAll_fixed_point_witness :
    ("Recipe_A" ∈ wData.recipes.map Prod.fst ∧ "Recipe_A" ∉ pruneAll wData wRes []) ∧
    isFeasible wData wRes (pruneAll wData wRes []) "Recipe_A" = true :=
  ⟨⟨by decide, by decide⟩,
   pruneAll_fixed_point wData wRes [] "Recipe_A" (by decide) (by decide)⟩

/-! ### Flow-graph construction (`Solver::solve` lines 218-245 and
`Solver::add_variables`) -/

/-- Inner loop of the target phase: one unbounded edge per producer recipe of
the target item, destination the target's output node. -/
def addTargetEdges (d : GameData) (dis : List String) (item : String)
    (st : BuildSt) : BuildSt :=
  (d.getItemCreators item dis).foldl (fun s c => addSimpleVariable c item item s) st

/-- The equality constraint registered for one target: coefficient `1.0` on
every edge currently incoming to the target's output node carrying the target
item, right-hand side the requested rate. -/
def targetConstraint (ls : List (String × List Link)) (item : String) (rate : ℚ) :
    Constraint :=
  ⟨(getIncomingForItem ls item item).map (fun l => (l.varId, (1 : ℚ))), CompOp.eq, rate⟩

/-- The target loop of `solve` (lines 219-228): for each target, check the
item exists (fatal error otherwise), add producer edges, queue the producers,
and register the rate equality constraint.  The error carries the build state
at the moment of the abort. -/
def processTargets (d : GameData) (dis : List String) :
    List (String × ℚ) → BuildSt → List String →
    Except (String × BuildSt) (BuildSt × List String)
  | [], st, rta => Except.ok (st, rta)
  | (item, rate) :: rest, st, rta =>
      if containsKey d.items item then
        let st1 := addTargetEdges d dis item st
        let c := targetConstraint st1.links item rate
        processTargets d dis rest ⟨st1.problem.addConstraint c.lhs c.op c.rhs, st1.links⟩
          (rta ++ d.getItemCreators item dis)
      else Except.error ("\"" ++ item ++ "\" is not an item", st)

/-- The per-target constraints the target loop appends, replayed over the
evolving build state. -/
def targetConstraintsSpec (d : GameData) (dis : List String) :
    List (String × ℚ) → BuildSt → List Constraint
  | [], _ => []
  | (item, rate) :: rest, st =>
      let st1 := addTargetEdges d dis item st
      let c := targetConstraint st1.links item rate
      c :: targetConstraintsSpec d dis rest ⟨st1.problem.addConstraint c.lhs c.op c.rhs, st1.links⟩

/-- Creator loop inside `add_variables`: the `exists` flag is read before the
edge is added, and the child is expanded (`av`) only when it was not yet an
edge source. -/
def avChildren (rid ing : String) (av : String → BuildSt → BuildSt) :
    List String → BuildSt → BuildSt
  | [], st => st
  | child :: rest, st =>
      let ex := containsKey st.links child
      let st1 := addSimpleVariable child rid ing st
      avChildren rid ing av rest (if ex then st1 else av child st1)

/-- Ingredient loop of `add_variables`: resource edge when the ingredient is
a resource key, then one edge per non-disallowed creator. -/
def avIngredients (d : GameData) (res : List (String × Resource)) (dis : List String)
    (rid : String) (av : String → BuildSt → BuildSt) :
    List String → BuildSt → BuildSt
  | [], st => st
  | ing :: rest, st =>
      let st1 := match lookupA res ing with
        | some resource => addResourceVariable resource rid ing st
        | none => st
      avIngredients d res dis rid av rest
        (avChildren rid ing av (d.getItemCreators ing dis) st1)

/-- `Solver::add_variables`, with fuel bounding the recursion depth. -/
def addVariables (d : GameData) (res : List (String × Resource)) (dis : List String) :
    Nat → String → BuildSt → BuildSt
  | 0, _, st => st
  | fuel + 1, rid, st =>
      avIngredients d res dis rid (addVariables d res dis fuel) (d.getIngredients rid) st

def defaultRecipe : Recipe := ⟨"", "", false, 0, false, [], [], []⟩

def getRecipeD (d : GameData) (rid : String) : Recipe :=
  (lookupA d.recipes rid).getD defaultRecipe

/-- Byproduct loop (lines 232-245): iterate a snapshot of the link buckets;
for every non-`Desc_` node, every product with no outgoing link of that item
gets a synthetic weighted sink edge. -/
def byproductStep (d : GameData) (coef : ℚ) (nodeId : String) (links : List Link)
    (st : BuildSt) : BuildSt :=
  if strStartsWith nodeId "Desc_" then st
  else
    (d.getProducts nodeId).foldl
      (fun s product =>
        if links.any (fun l => l.item = product) then s
        else addWeightedVariable nodeId product product coef s)
      st

def byproductPhase (d : GameData) (coef : ℚ) (st : BuildSt) : BuildSt :=
  st.links.foldl (fun s kv => byproductStep d coef kv.1 kv.2 s) st

/-! Constraint assembly (lines 246-273). -/

/-- The `temp_lhs: HashMap<usize, Vec<f64>>` grouping: push onto the group of
an existing variable index, otherwise open a fresh group. -/
def insertGrouped : List (Nat × List ℚ) → Nat → ℚ → List (Nat × List ℚ)
  | [], idx, c => [(idx, [c])]
  | kv :: rest, idx, c =>
      if kv.1 = idx then (kv.1, kv.2 ++ [c]) :: rest
      else kv :: insertGrouped rest idx c

def groupPairs (l : List (Nat × ℚ)) : List (Nat × List ℚ) :=
  l.foldl (fun acc p => insertGrouped acc p.1 p.2) []

/-- The deduplicated left-hand side: incoming links weighted by the product
amount, outgoing links by minus the ingredient amount, grouped by variable
index with coefficients summed. -/
def balanceLhs (inputs outputs : List Link) (outRate inRate : ℚ) : List (Nat × ℚ) :=
  (groupPairs ((inputs.map (fun l => (l.varId, outRate)))
      ++ (outputs.map (fun l => (l.varId, -inRate))))).map
    (fun kv => (kv.1, kv.2.foldl (fun a c => a + c) 0))

/-- The stoichiometric balance constraint for one (ingredient, product) pair
of one production node. -/
def balanceConstraint (ls : List (String × List Link)) (nodeId : String)
    (ing prod : ItemQuantity) : Constraint :=
  ⟨balanceLhs (getIncomingForItem ls nodeId ing.item)
      (getOutgoingForItem ls nodeId prod.item) prod.amount ing.amount,
    CompOp.eq, 0⟩

/-- All balance constraints, in emission order: per link-set bucket whose key
is not `Desc_`-prefixed, per ingredient, per product. -/
def balanceBlock (d : GameData) (ls : List (String × List Link)) : List Constraint :=
  ls.flatMap (fun kv =>
    if strStartsWith kv.1 "Desc_" then []
    else
      (getRecipeD d kv.1).ingredients.flatMap (fun ing =>
        (getRecipeD d kv.1).products.map (fun prod => balanceConstraint ls kv.1 ing prod)))

def assemblyPhase (d : GameData) (st : BuildSt) : BuildSt :=
  st.links.foldl
    (fun s kv =>
      if strStartsWith kv.1 "Desc_" then s
      else
        (getRecipeD d kv.1).ingredients.foldl
          (fun s2 ing =>
            (getRecipeD d kv.1).products.foldl
              (fun s3 prod =>
                let c := balanceConstraint s3.links kv.1 ing prod
                ⟨s3.problem.addConstraint c.lhs c.op c.rhs, s3.links⟩)
              s2)
          s)
    st

def avFuel (d : GameData) : Nat := d.recipes.length + 1

def emptyBuildSt : BuildSt := ⟨⟨[], []⟩, []⟩

/-- The LP-construction prefix of `Solver::solve` (lines 208-273), in the
code's sequencing: pruning, target loop, recursive expansion of the queued
producer recipes, byproduct sinks, constraint assembly. -/
def solveProblem (s : Solver) : Except (String × BuildSt) (BuildSt × List String) :=
  match processTargets s.data (pruneAll s.data s.resources s.disallowedRecipes)
      s.targets emptyBuildSt [] with
  | Except.error e => Except.error e
  | Except.ok (st, rta) =>
      Except.ok
        (assemblyPhase s.data
          (byproductPhase s.data s.byproductCoefficient
            (rta.foldl
              (fun acc rid => addVariables s.data s.resources
                (pruneAll s.data s.resources s.disallowedRecipes) (avFuel s.data) rid acc)
              st)),
         rta)

/-! ### Solution extraction (`Solver::solve` lines 274-318) -/

structure ItemRate where
  name : String
  otherNodeName : String
  rate : ℚ
  underclock : ℚ
  deriving DecidableEq, Repr

inductive NodeType where
  | input
  | production
  | output
  deriving DecidableEq, Repr

structure Node where
  nodeType : NodeType
  name : String
  inputs : List (String × ItemRate)
  outputs : List (String × ItemRate)
  deriving DecidableEq, Repr

structure Factory where
  nodes : List (String × Node)
  deriving DecidableEq, Repr

def Factory.addNode (f : Factory) (nodeId name : String) (t : NodeType) : Factory :=
  ⟨insertA f.nodes nodeId ⟨t, name, [], []⟩⟩

def Factory.addNodeInput (f : Factory) (nodeId source : String) (ir : ItemRate) : Factory :=
  ⟨modifyA f.nodes nodeId (fun n => { n with inputs := insertA n.inputs source ir })⟩

def Factory.addNodeOutput (f : Factory) (nodeId destination : String) (ir : ItemRate) :
    Factory :=
  ⟨modifyA f.nodes nodeId (fun n => { n with outputs := insertA n.outputs destination ir })⟩

def getItemNameD (d : GameData) (itemId : String) : String :=
  match lookupA d.items itemId with
  | some it => it.name
  | none => ""

def getRecipeNameD (d : GameData) (recipeId : String) : String :=
  (getRecipeD d recipeId).name

/-- The `amount` scan of `get_underclock`: the last matching product entry
wins, default `0.0`. -/
def productAmountOf (r : Recipe) (itemId : String) : ℚ :=
  r.products.foldl (fun acc pq => if pq.item = itemId then pq.amount else acc) 0

/-- The integer machine count `((rate * time) / (60.0 * amount)).ceil()`. -/
def machineCount (d : GameData) (recipeId itemId : String) (rate : ℚ) : ℤ :=
  ⌈(rate * (getRecipeD d recipeId).time) / (60 * productAmountOf (getRecipeD d recipeId) itemId)⌉

/-- `Solver::get_underclock`. -/
def getUnderclock (d : GameData) (recipeId itemId : String) (rate : ℚ) : ℚ :=
  if strStartsWith recipeId "Desc_" then rate
  else rate / ((machineCount d recipeId itemId rate : ℤ) : ℚ)

def nodeDisplayName (d : GameData) (nodeId : String) : String :=
  if strStartsWith nodeId "Desc_" then getItemNameD d nodeId else getRecipeNameD d nodeId

/-- Node-creation loop (lines 277-288): one node per link bucket key. -/
def buildNodes (d : GameData) (targets : List (String × ℚ))
    (ls : List (String × List Link)) : Factory :=
  ls.foldl
    (fun f kv =>
      if strStartsWith kv.1 "Desc_" then
        if containsKey targets kv.1 then f.addNode kv.1 (getItemNameD d kv.1) NodeType.output
        else f.addNode kv.1 (getItemNameD d kv.1) NodeType.input
      else f.addNode kv.1 (getRecipeNameD d kv.1) NodeType.production)
    ⟨[]⟩

/-- Edge-recording loop body (lines 290-300): output entry on the source,
fresh `Output` node for a destination never seen as a source, input entry on
the destination. -/
def recordEdge (d : GameData) (sol : Nat → ℚ) (nodeId : String) (link : Link)
    (f : Factory) : Factory :=
  let itemName := getItemNameD d link.item
  let itemRate := sol link.varId
  let f1 := f.addNodeOutput nodeId link.destination
    ⟨itemName, nodeDisplayName d link.destination, itemRate,
      getUnderclock d nodeId link.item itemRate⟩
  let f2 := if containsKey f1.nodes link.destination then f1
    else f1.addNode link.destination (getItemNameD d link.destination) NodeType.output
  f2.addNodeInput link.destination nodeId ⟨itemName, nodeDisplayName d nodeId, itemRate, 0⟩

def recordEdges (d : GameData) (sol : Nat → ℚ) (ls : List (String × List Link))
    (f : Factory) : Factory :=
  ls.foldl (fun acc kv => kv.2.foldl (fun a link => recordEdge d sol kv.1 link a) acc) f

def qabs (q : ℚ) : ℚ := if q < 0 then -q else q

/-- The cleanup threshold `0.00001`, written as an already-reduced rational
literal (`eps_eq` identifies it with `1 / 100000`). -/
def eps : ℚ := ⟨1, 100000, by norm_num, by norm_num⟩

theorem eps_eq : eps = 1 / 100000 := by
  rw [eps, Rat.mk'_eq_divInt, Rat.divInt_eq_div]
  norm_num

/-- The per-node mutation of the cleanup loop: erase from the live node the
entry keys whose snapshot rate is `<= 0.00001` in magnitude. -/
def cleanNode (snap live : Node) : Node :=
  { live with
    inputs := snap.inputs.foldl
      (fun m kv => if qabs kv.2.rate ≤ eps then eraseA m kv.1 else m) live.inputs,
    outputs := snap.outputs.foldl
      (fun m kv => if qabs kv.2.rate ≤ eps then eraseA m kv.1 else m) live.outputs }

/-- Cleanup step for one node of the snapshot (lines 302-316): drop entries
with `|rate| <= 0.00001`, then drop the node if both maps emptied. -/
def filterNodeStep (f : Factory) (nodeId : String) (node : Node) : Factory :=
  match lookupA (modifyA f.nodes nodeId (cleanNode node)) nodeId with
  | some n =>
      if n.inputs.isEmpty ∧ n.outputs.isEmpty then
        ⟨eraseA (modifyA f.nodes nodeId (cleanNode node)) nodeId⟩
      else ⟨modifyA f.nodes nodeId (cleanNode node)⟩
  | none => ⟨modifyA f.nodes nodeId (cleanNode node)⟩

def filterPhase (f : Factory) : Factory :=
  f.nodes.foldl (fun acc kv => filterNodeStep acc kv.1 kv.2) f

/-- `Solver::solve` end to end, with the external LP engine's answer supplied
as the oracle `sol` (one rational per variable index). -/
def solveFactory (s : Solver) (sol : Nat → ℚ) : Except (String × BuildSt) Factory :=
  match solveProblem s with
  | Except.error e => Except.error e
  | Except.ok (st, _) =>
      Except.ok (filterPhase (recordEdges s.data sol st.links (buildNodes s.data s.targets st.links)))

/-! ### Shared concrete scenario data -/

def xRecipeR : Recipe :=
  ⟨"R", "Recipe_R", false, 2, false, [⟨"Desc_Ore", 1⟩], [⟨"Desc_A", 1⟩, ⟨"Desc_B", 1⟩], []⟩

def xData : GameData :=
  ⟨[("Recipe_R", xRecipeR)],
   [("Desc_A", ⟨"A item"⟩), ("Desc_B", ⟨"B item"⟩), ("Desc_Ore", ⟨"Ore"⟩)],
   [("Desc_Ore", ⟨"Ore"⟩)]⟩

def xRes : List (String × Resource) := [("Desc_Ore", ⟨100, 10⟩)]

/-- One target. -/
def xSolver : Solver := ⟨xData, xRes, [], [], 1000, [("Desc_A", 5)]⟩

/-- Two targets produced by the same recipe. -/
def xSolver2 : Solver := ⟨xData, xRes, [], [], 1000, [("Desc_A", 5), ("Desc_B", 3)]⟩

/-- A valid first target followed by an unknown one. -/
def xSolver5 : Solver := ⟨xData, xRes, [], [], 1000, [("Desc_A", 5), ("Desc_Bogus", 3)]⟩

def getOk {ε α : Type} (dflt : α) : Except ε α → α
  | Except.ok a => a
  | Except.error _ => dflt

def getErrSt : Except (String × BuildSt) (BuildSt × List String) → BuildSt
  | Except.error (_, st) => st
  | Except.ok _ => emptyBuildSt

/-! ### Constraint bookkeeping lemmas for the construction phases -/

theorem addTargetEdges_constraints (d : GameData) (dis : List String) (item : String) :
    ∀ (l : List String) (st : BuildSt),
      ((l.foldl (fun s c => addSimpleVariable c item item s) st)).problem.constraints
        = st.problem.constraints := by
  intro l
  induction l with
  | nil => intro st; rfl
  | cons c rest ih => intro st; exact ih _

theorem avChildren_constraints (rid ing : String) (av : String → BuildSt → BuildSt)
    (hav : ∀ c st, (av c st).problem.constraints = st.problem.constraints) :
    ∀ (l : List String) (st : BuildSt),
      (avChildren rid ing av l st).problem.constraints = st.problem.constraints := by
  intro l
  induction l with
  | nil => intro st; rfl
  | cons c rest ih =>
    intro st
    unfold avChildren
    by_cases hex : containsKey st.links c
    · simp only [hex, if_true]
      exact ih _
    · simp only [hex, Bool.false_eq_true, if_false]
      rw [ih _, hav _ _]
      rfl

theorem avIngredients_constraints (d : GameData) (res : List (String × Resource))
    (dis : List String) (rid : String) (av : String → BuildSt → BuildSt)
    (hav : ∀ c st, (av c st).problem.constraints = st.problem.constraints) :
    ∀ (l : List String) (st : BuildSt),
      (avIngredients d res dis rid av l st).problem.constraints
        = st.problem.constraints := by
  intro l
  induction l with
  | nil => intro st; rfl
  | cons ing rest ih =>
    intro st
    unfold avIngredients
    rw [ih _, avChildren_constraints rid ing av hav]
    cases lookupA res ing <;> rfl

theorem addVariables_constraints (d : GameData) (res : List (String × Resource))
    (dis : List String) :
    ∀ (fuel : Nat) (rid : String) (st : BuildSt),
      (addVariables d res dis fuel rid st).problem.constraints
        = st.problem.constraints := by
  intro fuel
  induction fuel with
  | zero => intro rid st; rfl
  | succ n ih =>
    intro rid st
    unfold addVariables
    exact avIngredients_constraints d res dis rid _ (fun c s => ih c s) _ st

theorem byproductStep_constraints (d : GameData) (coef : ℚ) (nodeId : String)
    (links : List Link) (st : BuildSt) :
    (byproductStep d coef nodeId links st).problem.constraints
      = st.problem.constraints := by
  unfold byproductStep
  by_cases hdesc : strStartsWith nodeId "Desc_"
  · simp [hdesc]
  · simp only [hdesc, Bool.false_eq_true, if_false]
    generalize d.getProducts nodeId = prods
    induction prods generalizing st with
    | nil => rfl
    | cons p rest ih =>
      simp only [List.foldl_cons]
      by_cases hany : links.any (fun l => l.item = p)
      · simp only [hany, if_true]
        exact ih st
      · simp only [hany, Bool.false_eq_true, if_false]
        exact ih _

theorem byproductPhase_constraints (d : GameData) (coef : ℚ) (st : BuildSt) :
    (byproductPhase d coef st).problem.constraints = st.problem.constraints := by
  unfold byproductPhase
  generalize st.links = buckets
  induction buckets generalizing st with
  | nil => rfl
  | cons kv rest ih =>
    simp only [List.foldl_cons]
    rw [ih _, byproductStep_constraints]

def nodeBlock (d : GameData) (ls : List (String × List Link)) (nid : String) :
    List Constraint :=
  if strStartsWith nid "Desc_" then []
  else
    (getRecipeD d nid).ingredients.flatMap (fun ing =>
      (getRecipeD d nid).products.map (fun prod => balanceConstraint ls nid ing prod))

theorem balanceBlock_eq_flatMap (d : GameData) (ls : List (String × List Link)) :
    balanceBlock d ls = ls.flatMap (fun kv => nodeBlock d ls kv.1) := by
  unfold balanceBlock nodeBlock
  rfl

theorem assembly_prodFold (d : GameData) (nid : String) (ing : ItemQuantity) :
    ∀ (prods : List ItemQuantity) (s : BuildSt),
      ((prods.foldl (fun s3 prod =>
          let c := balanceConstraint s3.links nid ing prod
          (⟨s3.problem.addConstraint c.lhs c.op c.rhs, s3.links⟩ : BuildSt)) s)).links = s.links ∧
      ((prods.foldl (fun s3 prod =>
          let c := balanceConstraint s3.links nid ing prod
          (⟨s3.problem.addConstraint c.lhs c.op c.rhs, s3.links⟩ : BuildSt)) s)).problem.constraints
        = s.problem.constraints ++ prods.map (fun prod => balanceConstraint s.links nid ing prod) := by
  intro prods
  induction prods with
  | nil => intro s; exact ⟨rfl, by simp⟩
  | cons p rest ih =>
    intro s
    simp only [List.foldl_cons, List.map_cons]
    obtain ⟨hl, hc⟩ := ih ⟨s.problem.addConstraint (balanceConstraint s.links nid ing p).lhs
      (balanceConstraint s.links nid ing p).op (balanceConstraint s.links nid ing p).rhs, s.links⟩
    refine ⟨hl, ?_⟩
    rw [hc]
    simp [Problem.addConstraint]

theorem assembly_ingFold (d : GameData) (nid : String) :
    ∀ (ings : List ItemQuantity) (s : BuildSt),
      ((ings.foldl (fun s2 ing =>
          (getRecipeD d nid).products.foldl (fun s3 prod =>
            let c := balanceConstraint s3.links nid ing prod
            (⟨s3.problem.addConstraint c.lhs c.op c.rhs, s3.links⟩ : BuildSt)) s2) s)).links
        = s.links ∧
      ((ings.foldl (fun s2 ing =>
          (getRecipeD d nid).products.foldl (fun s3 prod =>
            let c := balanceConstraint s3.links nid ing prod
            (⟨s3.problem.addConstraint c.lhs c.op c.rhs, s3.links⟩ : BuildSt)) s2) s)).problem.constraints
        = s.problem.constraints
          ++ ings.flatMap (fun ing =>
              (getRecipeD d nid).products.map (fun prod => balanceConstraint s.links nid ing prod)) := by
  intro ings
  induction ings with
  | nil => intro s; exact ⟨rfl, by simp⟩
  | cons ing rest ih =>
    intro s
    simp only [List.foldl_cons, List.flatMap_cons]
    obtain ⟨hl1, hc1⟩ := assembly_prodFold d nid ing ((getRecipeD d nid).products) s
    obtain ⟨hl2, hc2⟩ := ih ((getRecipeD d nid).products.foldl (fun s3 prod =>
      let c := balanceConstraint s3.links nid ing prod
      (⟨s3.problem.addConstraint c.lhs c.op c.rhs, s3.links⟩ : BuildSt)) s)
    refine ⟨by rw [hl2, hl1], ?_⟩
    rw [hc2, hc1, hl1]
    simp

theorem assemblyPhase_spec (d : GameData) (st : BuildSt) :
    (assemblyPhase d st).links = st.links ∧
    (assemblyPhase d st).problem.constraints
      = st.problem.constraints ++ balanceBlock d st.links := by
  rw [balanceBlock_eq_flatMap]
  unfold assemblyPhase
  have main : ∀ (L : List (String × List Link)) (s : BuildSt),
      ((L.foldl (fun s kv =>
          if strStartsWith kv.1 "Desc_" then s
          else
            (getRecipeD d kv.1).ingredients.foldl
              (fun s2 ing =>
                (getRecipeD d kv.1).products.foldl
                  (fun s3 prod =>
                    let c := balanceConstraint s3.links kv.1 ing prod
                    (⟨s3.problem.addConstraint c.lhs c.op c.rhs, s3.links⟩ : BuildSt))
                  s2)
              s) s)).links = s.links ∧
      ((L.foldl (fun s kv =>
          if strStartsWith kv.1 "Desc_" then s
          else
            (getRecipeD d kv.1).ingredients.foldl
              (fun s2 ing =>
                (getRecipeD d kv.1).products.foldl
                  (fun s3 prod =>
                    let c := balanceConstraint s3.links kv.1 ing prod
                    (⟨s3.problem.addConstraint c.lhs c.op c.rhs, s3.links⟩ : BuildSt))
                  s2)
              s) s)).problem.constraints
        = s.problem.constraints ++ L.flatMap (fun kv => nodeBlock d s.links kv.1) := by
    intro L
    induction L with
    | nil => intro s; exact ⟨rfl, by simp⟩
    | cons kv rest ih =>
      intro s
      simp only [List.foldl_cons, List.flatMap_cons]
      by_cases hdesc : strStartsWith kv.1 "Desc_"
      · simp only [hdesc, if_true]
        obtain ⟨hl, hc⟩ := ih s
        refine ⟨hl, ?_⟩
        rw [hc]
        simp [nodeBlock, hdesc]
      · simp only [hdesc, Bool.false_eq_true, if_false]
        obtain ⟨hl1, hc1⟩ := assembly_ingFold d kv.1 ((getRecipeD d kv.1).ingredients) s
        obtain ⟨hl2, hc2⟩ := ih _
        refine ⟨by rw [hl2, hl1], ?_⟩
        rw [hc2, hc1, hl1]
        simp [nodeBlock, hdesc]
  exact main st.links st

/-! ### C3: per-target rate equality constraints -/

theorem addTargetEdges_constraints_eq (d : GameData) (dis : List String)
    (item : String) (st : BuildSt) :
    (addTargetEdges d dis item st).problem.constraints = st.problem.constraints :=
  addTargetEdges_constraints d dis item (d.getItemCreators item dis) st

theorem targetConstraintsSpec_cons (d : GameData) (dis : List String)
    (item : String) (rate : ℚ) (rest : List (String × ℚ)) (st : BuildSt) :
    targetConstraintsSpec d dis ((item, rate) :: rest) st
      = targetConstraint (addTargetEdges d dis item st).links item rate
        :: targetConstraintsSpec d dis rest
          ⟨(addTargetEdges d dis item st).problem.addConstraint
              (targetConstraint (addTargetEdges d dis item st).links item rate).lhs
              (targetConstraint (addTargetEdges d dis item st).links item rate).op
              (targetConstraint (addTargetEdges d dis item st).links item rate).rhs,
            (addTargetEdges d dis item st).links⟩ := rfl

theorem processTargets_ok_constraints (d : GameData) (dis : List String) :
    ∀ (targets : List (String × ℚ)) (st : BuildSt) (rta : List String)
      (stf : BuildSt) (rtaf : List String),
      processTargets d dis targets st rta = Except.ok (stf, rtaf) →
      stf.problem.constraints
        = st.problem.constraints ++ targetConstraintsSpec d dis targets st := by
  intro targets
  induction targets with
  | nil =>
    intro st rta stf rtaf h
    simp only [processTargets] at h
    cases h
    simp [targetConstraintsSpec]
  | cons tr rest ih =>
    obtain ⟨item, rate⟩ := tr
    intro st rta stf rtaf h
    unfold processTargets at h
    by_cases hc : containsKey d.items item
    · simp only [hc, if_true] at h
      have hrec := ih _ _ _ _ h
      rw [hrec, targetConstraintsSpec_cons]
      have hS : ((⟨(addTargetEdges d dis item st).problem.addConstraint
            (targetConstraint (addTargetEdges d dis item st).links item rate).lhs
            (targetConstraint (addTargetEdges d dis item st).links item rate).op
            (targetConstraint (addTargetEdges d dis item st).links item rate).rhs,
          (addTargetEdges d dis item st).links⟩ : BuildSt)).problem.constraints
          = st.problem.constraints
            ++ [targetConstraint (addTargetEdges d dis item st).links item rate] := by
        simp only [Problem.addConstraint]
        rw [addTargetEdges_constraints_eq]
      rw [hS, List.append_assoc]
      rfl
    · simp only [hc, Bool.false_eq_true, if_false] at h
      cases h

theorem targetConstraintsSpec_shape (d : GameData) (dis : List String) :
    ∀ (targets : List (String × ℚ)) (st : BuildSt),
      List.Forall₂
        (fun (tr : String × ℚ) (c : Constraint) =>
          c.op = CompOp.eq ∧ c.rhs = tr.2 ∧
          ∃ snap, c.lhs
            = (getIncomingForItem snap tr.1 tr.1).map (fun l => (l.varId, (1 : ℚ))))
        targets (targetConstraintsSpec d dis targets st) := by
  intro targets
  induction targets with
  | nil => intro st; exact List.Forall₂.nil
  | cons tr rest ih =>
    obtain ⟨item, rate⟩ := tr
    intro st
    unfold targetConstraintsSpec
    exact List.Forall₂.cons
      ⟨rfl, rfl, ⟨(addTargetEdges d dis item st).links, rfl⟩⟩ (ih _)

theorem balanceBlock_shape (d : GameData) (ls : List (String × List Link)) :
    ∀ c ∈ balanceBlock d ls, c.op = CompOp.eq ∧ c.rhs = 0 := by
  intro c hc
  unfold balanceBlock at hc
  rw [List.mem_flatMap] at hc
  obtain ⟨kv, _, hc⟩ := hc
  by_cases hdesc : strStartsWith kv.1 "Desc_"
  · simp [hdesc] at hc
  · simp only [hdesc, Bool.false_eq_true, if_false, List.mem_flatMap, List.mem_map] at hc
    obtain ⟨ing, _, prod, _, hceq⟩ := hc
    rw [← hceq]
    exact ⟨rfl, rfl⟩

/-- C3: on a successful solve, the LP's constraint list decomposes as the
per-target block followed by the stoichiometric block; each target contributes
exactly one constraint, an equality (`Eq`, not `>=`) with right-hand side the
requested rate and left-hand side coefficient `1` on each edge then incoming
to the target item's output node carrying the target item; every other
constraint of the LP is a balance constraint with right-hand side `0`. -/
theorem solve_target_rate_equality (s : Solver) (st : BuildSt) (rta : List String)
    (h : solveProblem s = Except.ok (st, rta)) :
    st.problem.constraints
      = targetConstraintsSpec s.data (pruneAll s.data s.resources s.disallowedRecipes)
          s.targets emptyBuildSt
        ++ balanceBlock s.data st.links ∧
    List.Forall₂
      (fun (tr : String × ℚ) (c : Constraint) =>
        c.op = CompOp.eq ∧ c.rhs = tr.2 ∧
        ∃ snap, c.lhs
          = (getIncomingForItem snap tr.1 tr.1).map (fun l => (l.varId, (1 : ℚ))))
      s.targets
      (targetConstraintsSpec s.data (pruneAll s.data s.resources s.disallowedRecipes)
        s.targets emptyBuildSt) ∧
    ∀ c ∈ balanceBlock s.data st.links, c.op = CompOp.eq ∧ c.rhs = 0 := by
  unfold solveProblem at h
  cases hpt : processTargets s.data (pruneAll s.data s.resources s.disallowedRecipes)
      s.targets emptyBuildSt [] with
  | error e => rw [hpt] at h; cases h
  | ok pr =>
    obtain ⟨st0, rta0⟩ := pr
    rw [hpt] at h
    simp only [Except.ok.injEq, Prod.mk.injEq] at h
    obtain ⟨hst, hrta⟩ := h
    subst hst
    have hasm := assemblyPhase_spec s.data
      (byproductPhase s.data s.byproductCoefficient
        (List.foldl (fun acc rid =>
          addVariables s.data s.resources
            (pruneAll s.data s.resources s.disallowedRecipes) (avFuel s.data) rid acc) st0 rta0))
    have hfold : ∀ (l : List String) (acc : BuildSt),
        ((l.foldl (fun acc rid =>
          addVariables s.data s.resources
            (pruneAll s.data s.resources s.disallowedRecipes) (avFuel s.data) rid acc) acc)).problem.constraints
          = acc.problem.constraints := by
      intro l
      induction l with
      | nil => intro acc; rfl
      | cons ridc rest ih =>
        intro acc
        simp only [List.foldl_cons]
        rw [ih _, addVariables_constraints]
    refine ⟨?_, targetConstraintsSpec_shape _ _ _ _, balanceBlock_shape _ _⟩
    rw [hasm.1, hasm.2, byproductPhase_constraints, hfold,
      processTargets_ok_constraints s.data _ s.targets emptyBuildSt [] st0 rta0 hpt]
    simp [emptyBuildSt]

def c3St : BuildSt := (getOk (emptyBuildSt, ([] : List String)) (solveProblem xSolver)).1

def c3Rta : List String := (getOk (emptyBuildSt, ([] : List String)) (solveProblem xSolver)).2

/-- Witness for `solve_target_rate_equality` on the concrete scenario. -/
theorem solve_target_rate_equality_witness :
    solveProblem xSolver = Except.ok (c3St, c3Rta) ∧
    (c3St.problem.constraints
      = targetConstraintsSpec xSolver.data
          (pruneAll xSolver.data xSolver.resources xSolver.disallowedRecipes)
          xSolver.targets emptyBuildSt
        ++ balanceBlock xSolver.data c3St.links ∧
    List.Forall₂
      (fun (tr : String × ℚ) (c : Constraint) =>
        c.op = CompOp.eq ∧ c.rhs = tr.2 ∧
        ∃ snap, c.lhs
          = (getIncomingForItem snap tr.1 tr.1).map (fun l => (l.varId, (1 : ℚ))))
      xSolver.targets
      (targetConstraintsSpec xSolver.data
        (pruneAll xSolver.data xSolver.resources xSolver.disallowedRecipes)
        xSolver.targets emptyBuildSt) ∧
    ∀ c ∈ balanceBlock xSolver.data c3St.links, c.op = CompOp.eq ∧ c.rhs = 0) :=
  ⟨rfl, solve_target_rate_equality xSolver c3St c3Rta rfl⟩

/-! ### C5: unknown target item aborts -/

/-- Counterexample to C5 as stated: `xSolver5`'s target set contains the
unknown item `"Desc_Bogus"`, yet at the moment of the abort one LP variable
and one LP constraint (for the earlier, valid target) have already been
registered — the abort does not happen before all LP work. -/
theorem unknown_item_abort_state_counterexample :
    (match solveProblem xSolver5 with
      | Except.error _ => true
      | Except.ok _ => false) = true ∧
    (getErrSt (solveProblem xSolver5)).problem.constraints.length = 1 ∧
    (getErrSt (solveProblem xSolver5)).problem.vars.length = 1 := by
  refine ⟨rfl, rfl, rfl⟩

theorem processTargets_unknown_aborts (d : GameData) (dis : List String) :
    ∀ (targets : List (String × ℚ)) (st : BuildSt) (rta : List String),
      (∃ t ∈ targets, containsKey d.items t.1 = false) →
      ∃ item stf, processTargets d dis targets st rta
          = Except.error ("\"" ++ item ++ "\" is not an item", stf) ∧
        containsKey d.items item = false := by
  intro targets
  induction targets with
  | nil =>
    intro st rta h
    obtain ⟨t, ht, _⟩ := h
    exact absurd ht (List.not_mem_nil t)
  | cons tr rest ih =>
    obtain ⟨item, rate⟩ := tr
    intro st rta h
    unfold processTargets
    by_cases hc : containsKey d.items item
    · simp only [hc, if_true]
      obtain ⟨t, ht, htc⟩ := h
      cases ht with
      | head => rw [hc] at htc; cases htc
      | tail _ ht => exact ih _ _ ⟨t, ht, htc⟩
    · simp only [hc, Bool.false_eq_true, if_false]
      exact ⟨item, st, rfl, by rw [← Bool.not_eq_true]; exact hc⟩

/-- C5 amended: whenever some requested target item is unknown, `solve`
aborts with the `"... is not an item"` fatal error during the target loop —
before `add_variables`, the byproduct pass, constraint assembly and the LP
solve ever run; however, edges and constraints for targets processed earlier
in the loop may already have been registered at the moment of the abort (see
the counterexample), so the abort is only guaranteed to precede all LP work
when the unknown target is processed first. -/
theorem solve_unknown_item_aborts (s : Solver) (t : String × ℚ)
    (ht : t ∈ s.targets) (hunk : containsKey s.data.items t.1 = false) :
    ∃ item stf, solveProblem s
        = Except.error ("\"" ++ item ++ "\" is not an item", stf) ∧
      containsKey s.data.items item = false ∧
      (∀ sol : Nat → ℚ, solveFactory s sol
        = Except.error ("\"" ++ item ++ "\" is not an item", stf)) := by
  obtain ⟨item, stf, herr, hitem⟩ :=
    processTargets_unknown_aborts s.data
      (pruneAll s.data s.resources s.disallowedRecipes) s.targets emptyBuildSt []
      ⟨t, ht, hunk⟩
  refine ⟨item, stf, ?_, hitem, ?_⟩
  · unfold solveProblem
    rw [herr]
  · intro sol
    unfold solveFactory solveProblem
    rw [herr]

/-- Witness for `solve_unknown_item_aborts` at the concrete scenario with an
unknown second target. -/
theorem solve_unknown_item_aborts_witness :
    (("Desc_Bogus", (3 : ℚ)) ∈ xSolver5.targets ∧
      containsKey xSolver5.data.items "Desc_Bogus" = false) ∧
    ∃ item stf, solveProblem xSolver5
        = Except.error ("\"" ++ item ++ "\" is not an item", stf) ∧
      containsKey xSolver5.data.items item = false ∧
      (∀ sol : Nat → ℚ, solveFactory xSolver5 sol
        = Except.error ("\"" ++ item ++ "\" is not an item", stf)) :=
  ⟨⟨by decide, by decide⟩,
   solve_unknown_item_aborts xSolver5 ("Desc_Bogus", 3) (by decide) (by decide)⟩

/-! ### C1: stoichiometric balance constraints with deduplicated terms -/

/-- Sum of the coefficients a variable index receives in a linear expression. -/
def coefSum (lhs : List (Nat × ℚ)) (v : Nat) : ℚ :=
  ((lhs.filter (fun p => p.1 = v)).map Prod.snd).sum

/-- Total of the coefficient groups held for a variable index. -/
def groupSum : List (Nat × List ℚ) → Nat → ℚ
  | [], _ => 0
  | kv :: rest, v =>
      (if kv.1 = v then kv.2.foldl (fun a c => a + c) 0 else 0) + groupSum rest v

theorem foldl_add_eq_sum : ∀ (l : List ℚ) (a : ℚ), l.foldl (fun x y => x + y) a = a + l.sum := by
  intro l
  induction l with
  | nil => intro a; simp
  | cons c rest ih => intro a; simp [ih, add_assoc]

theorem insertGrouped_keys (g : List (Nat × List ℚ)) (idx : Nat) (c : ℚ) :
    (insertGrouped g idx c).map Prod.fst
      = if idx ∈ g.map Prod.fst then g.map Prod.fst else g.map Prod.fst ++ [idx] := by
  induction g with
  | nil => simp [insertGrouped]
  | cons kv rest ih =>
    by_cases hk : kv.1 = idx
    · simp [insertGrouped, hk]
    · simp only [insertGrouped, hk, if_false, List.map_cons, ih]
      have : (idx ∈ kv.1 :: rest.map Prod.fst) ↔ idx ∈ rest.map Prod.fst := by
        constructor
        · intro h
          cases h with
          | head => exact absurd rfl (fun he => hk he.symm)
          | tail _ h => exact h
        · exact fun h => List.mem_cons_of_mem _ h
      by_cases hmem : idx ∈ rest.map Prod.fst
      · simp [hmem, this]
      · simp [hmem, this]

theorem insertGrouped_keys_nodup {g : List (Nat × List ℚ)} {idx : Nat} {c : ℚ}
    (h : (g.map Prod.fst).Nodup) : ((insertGrouped g idx c).map Prod.fst).Nodup := by
  rw [insertGrouped_keys]
  by_cases hmem : idx ∈ g.map Prod.fst
  · simpa [hmem] using h
  · simp only [hmem, if_false]
    rw [List.nodup_append]
    exact ⟨h, List.nodup_singleton idx, by simpa [List.disjoint_singleton] using hmem⟩

theorem groupPairs_keys_nodup (l : List (Nat × ℚ)) :
    ((groupPairs l).map Prod.fst).Nodup := by
  unfold groupPairs
  have main : ∀ (l : List (Nat × ℚ)) (acc : List (Nat × List ℚ)),
      (acc.map Prod.fst).Nodup →
      ((l.foldl (fun acc p => insertGrouped acc p.1 p.2) acc).map Prod.fst).Nodup := by
    intro l
    induction l with
    | nil => intro acc h; exact h
    | cons p rest ih =>
      intro acc h
      exact ih _ (insertGrouped_keys_nodup h)
  exact main l [] (by simp)

theorem insertGrouped_groupSum (g : List (Nat × List ℚ)) (idx : Nat) (c : ℚ) (v : Nat) :
    groupSum (insertGrouped g idx c) v = groupSum g v + (if idx = v then c else 0) := by
  induction g with
  | nil => simp [insertGrouped, groupSum, foldl_add_eq_sum]
  | cons kv rest ih =>
    obtain ⟨k, cs⟩ := kv
    simp only [insertGrouped]
    by_cases hk : k = idx
    · rw [if_pos hk]
      simp only [groupSum]
      by_cases hv : k = v
      · rw [if_pos hv, if_pos hv, if_pos (hk.symm.trans hv)]
        rw [foldl_add_eq_sum, foldl_add_eq_sum, List.sum_append]
        simp
        ring
      · rw [if_neg hv, if_neg hv, if_neg (fun h => hv (hk.trans h))]
        ring
    · rw [if_neg hk]
      simp only [groupSum]
      rw [ih]
      ring

theorem groupPairs_groupSum (l : List (Nat × ℚ)) (v : Nat) :
    groupSum (groupPairs l) v = coefSum l v := by
  unfold groupPairs
  have main : ∀ (l : List (Nat × ℚ)) (acc : List (Nat × List ℚ)),
      groupSum (l.foldl (fun acc p => insertGrouped acc p.1 p.2) acc) v
        = groupSum acc v + coefSum l v := by
    intro l
    induction l with
    | nil => intro acc; simp [coefSum]
    | cons p rest ih =>
      intro acc
      simp only [List.foldl_cons]
      rw [ih _, insertGrouped_groupSum]
      have : coefSum (p :: rest) v = (if p.1 = v then p.2 else 0) + coefSum rest v := by
        unfold coefSum
        by_cases hp : p.1 = v <;> simp [hp]
      rw [this]
      ring
  rw [main l []]
  simp [groupSum]

theorem coefSum_of_grouped (g : List (Nat × List ℚ)) (v : Nat) :
    coefSum (g.map (fun kv => (kv.1, kv.2.foldl (fun a c => a + c) 0))) v
      = groupSum g v := by
  induction g with
  | nil => simp [coefSum, groupSum]
  | cons kv rest ih =>
    unfold coefSum at ih ⊢
    rw [List.map_cons]
    by_cases hk : kv.1 = v
    · rw [List.filter_cons_of_pos (by simpa using hk)]
      simp only [List.map_cons, List.sum_cons]
      rw [ih]
      simp only [groupSum]
      rw [if_pos hk]
    · rw [List.filter_cons_of_neg (by simpa using hk)]
      rw [ih]
      simp only [groupSum]
      rw [if_neg hk]
      ring

theorem coefSum_append (a b : List (Nat × ℚ)) (v : Nat) :
    coefSum (a ++ b) v = coefSum a v + coefSum b v := by
  unfold coefSum
  simp

theorem coefSum_const_links (links : List Link) (w : ℚ) (v : Nat) :
    coefSum (links.map (fun l => (l.varId, w))) v
      = w * ((links.filter (fun l => l.varId = v)).length : ℚ) := by
  induction links with
  | nil => simp [coefSum]
  | cons l rest ih =>
    unfold coefSum at ih ⊢
    rw [List.map_cons]
    by_cases hv : l.varId = v
    · rw [List.filter_cons_of_pos (by simpa using hv),
        List.filter_cons_of_pos (by simpa using hv)]
      simp only [List.map_cons, List.sum_cons, List.length_cons]
      rw [ih]
      push_cast
      ring
    · rw [List.filter_cons_of_neg (by simpa using hv),
        List.filter_cons_of_neg (by simpa using hv)]
      exact ih

/-- The shape of one emitted balance constraint: an equality with right-hand
side `0`, no duplicate variable indices, and for every variable the single
coefficient equals `product_amount * (occurrences among incoming links of the
ingredient) - ingredient_amount * (occurrences among outgoing links of the
product)`. -/
theorem balanceConstraint_shape (ls : List (String × List Link)) (nodeId : String)
    (ing prod : ItemQuantity) :
    (balanceConstraint ls nodeId ing prod).op = CompOp.eq ∧
    (balanceConstraint ls nodeId ing prod).rhs = 0 ∧
    ((balanceConstraint ls nodeId ing prod).lhs.map Prod.fst).Nodup ∧
    ∀ v : Nat, coefSum (balanceConstraint ls nodeId ing prod).lhs v
        = prod.amount
            * (((getIncomingForItem ls nodeId ing.item).filter (fun l => l.varId = v)).length : ℚ)
          - ing.amount
            * (((getOutgoingForItem ls nodeId prod.item).filter (fun l => l.varId = v)).length : ℚ) := by
  refine ⟨rfl, rfl, ?_, ?_⟩
  · show ((balanceLhs (getIncomingForItem ls nodeId ing.item)
      (getOutgoingForItem ls nodeId prod.item) prod.amount ing.amount).map Prod.fst).Nodup
    unfold balanceLhs
    rw [List.map_map]
    have : (Prod.fst ∘ fun (kv : Nat × List ℚ) => (kv.1, kv.2.foldl (fun a c => a + c) 0))
        = Prod.fst := by
      funext kv
      rfl
    rw [this]
    exact groupPairs_keys_nodup _
  · intro v
    show coefSum (balanceLhs (getIncomingForItem ls nodeId ing.item)
      (getOutgoingForItem ls nodeId prod.item) prod.amount ing.amount) v = _
    unfold balanceLhs
    rw [coefSum_of_grouped, groupPairs_groupSum, coefSum_append,
      coefSum_const_links, coefSum_const_links]
    ring

/-- C1: on a successful solve the LP's constraints end, after the per-target
block, with exactly one balance constraint per production node (link-set key
that is a recipe id) per (ingredient, product) pair drawn from that recipe's
full ingredient list crossed with its full product list, in emission order;
each such constraint is an equality `product_amount * Σ incoming(ingredient)
- ingredient_amount * Σ outgoing(product) = 0`, and a variable receiving
contributions from both sides appears as a single summed term (no duplicate
variable indices in the left-hand side). -/
theorem solve_balance_constraints (s : Solver) (st : BuildSt) (rta : List String)
    (h : solveProblem s = Except.ok (st, rta)) :
    st.problem.constraints
      = targetConstraintsSpec s.data (pruneAll s.data s.resources s.disallowedRecipes)
          s.targets emptyBuildSt
        ++ st.links.flatMap (fun kv => nodeBlock s.data st.links kv.1) ∧
    (∀ nid r, lookupA s.data.recipes nid = some r → strStartsWith nid "Desc_" = false →
      nodeBlock s.data st.links nid
        = r.ingredients.flatMap (fun ing =>
            r.products.map (fun prod => balanceConstraint st.links nid ing prod))) ∧
    (∀ nid ing prod,
      (balanceConstraint st.links nid ing prod).op = CompOp.eq ∧
      (balanceConstraint st.links nid ing prod).rhs = 0 ∧
      ((balanceConstraint st.links nid ing prod).lhs.map Prod.fst).Nodup ∧
      ∀ v : Nat, coefSum (balanceConstraint st.links nid ing prod).lhs v
          = prod.amount
              * (((getIncomingForItem st.links nid ing.item).filter (fun l => l.varId = v)).length : ℚ)
            - ing.amount
              * (((getOutgoingForItem st.links nid prod.item).filter (fun l => l.varId = v)).length : ℚ)) := by
  refine ⟨?_, ?_, fun nid ing prod => balanceConstraint_shape st.links nid ing prod⟩
  · have hmain := solve_target_rate_equality s st rta h
    rw [← balanceBlock_eq_flatMap]
    exact hmain.1
  · intro nid r hlook hdesc
    unfold nodeBlock getRecipeD
    rw [hlook, hdesc]
    simp

def c1St : BuildSt := (getOk (emptyBuildSt, ([] : List String)) (solveProblem xSolver2)).1

def c1Rta : List String := (getOk (emptyBuildSt, ([] : List String)) (solveProblem xSolver2)).2

/-- Witness for `solve_balance_constraints` on the two-target scenario. -/
theorem solve_balance_constraints_witness :
    solveProblem xSolver2 = Except.ok (c1St, c1Rta) ∧
    (c1St.problem.constraints
      = targetConstraintsSpec xSolver2.data
          (pruneAll xSolver2.data xSolver2.resources xSolver2.disallowedRecipes)
          xSolver2.targets emptyBuildSt
        ++ c1St.links.flatMap (fun kv => nodeBlock xSolver2.data c1St.links kv.1) ∧
    (∀ nid r, lookupA xSolver2.data.recipes nid = some r →
        strStartsWith nid "Desc_" = false →
      nodeBlock xSolver2.data c1St.links nid
        = r.ingredients.flatMap (fun ing =>
            r.products.map (fun prod => balanceConstraint c1St.links nid ing prod))) ∧
    (∀ nid ing prod,
      (balanceConstraint c1St.links nid ing prod).op = CompOp.eq ∧
      (balanceConstraint c1St.links nid ing prod).rhs = 0 ∧
      ((balanceConstraint c1St.links nid ing prod).lhs.map Prod.fst).Nodup ∧
      ∀ v : Nat, coefSum (balanceConstraint c1St.links nid ing prod).lhs v
          = prod.amount
              * (((getIncomingForItem c1St.links nid ing.item).filter (fun l => l.varId = v)).length : ℚ)
            - ing.amount
              * (((getOutgoingForItem c1St.links nid prod.item).filter (fun l => l.varId = v)).length : ℚ))) :=
  ⟨rfl, solve_balance_constraints xSolver2 c1St c1Rta rfl⟩

/-! ### C8: expansion guard and re-expansion through the target queue -/

/-- Counterexample to C8 as stated: in the two-target scenario the producer
recipe `Recipe_R` creates both targets, is queued once per target, and its
ingredient expansion runs twice — the resource edge `Desc_Ore -> Recipe_R` is
created twice (variables 2 and 3). -/
theorem reexpansion_duplicate_edges_counterexample :
    c1Rta = ["Recipe_R", "Recipe_R"] ∧
    (((lookupA c1St.links "Desc_Ore").getD []).filter
        (fun l => l.item = "Desc_Ore" ∧ l.destination = "Recipe_R")).length = 2 := by
  refine ⟨rfl, rfl⟩

theorem containsKey_addLinkTo_of (ls : List (String × List Link)) (source : String)
    (link : Link) (k : String) (h : containsKey ls k = true) :
    containsKey (addLinkTo ls source link) k = true := by
  induction ls with
  | nil => simp [containsKey, lookupA] at h
  | cons kv rest ih =>
    unfold containsKey lookupA at h
    by_cases hsrc : kv.1 = source
    · unfold addLinkTo
      rw [if_pos hsrc]
      unfold containsKey lookupA
      by_cases hk : kv.1 = k
      · simp [hk]
      · simp only [hk, if_false] at h ⊢
        exact h
    · unfold addLinkTo
      rw [if_neg hsrc]
      unfold containsKey lookupA
      by_cases hk : kv.1 = k
      · simp [hk]
      · simp only [hk, if_false] at h ⊢
        exact ih h

theorem containsKey_addSimple_of (a b i : String) (st : BuildSt) (k : String)
    (h : containsKey st.links k = true) :
    containsKey (addSimpleVariable a b i st).links k = true :=
  containsKey_addLinkTo_of st.links a _ k h

theorem avChildren_no_recursion (rid ing : String) (av : String → BuildSt → BuildSt) :
    ∀ (l : List String) (st : BuildSt),
      (∀ c ∈ l, containsKey st.links c = true) →
      avChildren rid ing av l st = avChildren rid ing (fun _ s => s) l st := by
  intro l
  induction l with
  | nil => intro st _; rfl
  | cons c rest ih =>
    intro st h
    have hex : containsKey st.links c = true := h c (List.mem_cons_self c rest)
    unfold avChildren
    simp only [hex, if_true]
    exact ih _ (fun q hq => containsKey_addSimple_of c rid ing st q
      (h q (List.mem_cons_of_mem c hq)))

theorem avChildren_id_keys_mono (rid ing : String) :
    ∀ (l : List String) (st : BuildSt) (k : String),
      containsKey st.links k = true →
      containsKey (avChildren rid ing (fun _ s => s) l st).links k = true := by
  intro l
  induction l with
  | nil => intro st k h; exact h
  | cons c rest ih =>
    intro st k h
    unfold avChildren
    have h1 : containsKey (addSimpleVariable c rid ing st).links k = true :=
      containsKey_addSimple_of c rid ing st k h
    by_cases hex : containsKey st.links c
    · simp only [hex, if_true]
      exact ih _ k h1
    · simp only [hex, Bool.false_eq_true, if_false]
      exact ih _ k h1

theorem containsKey_addResource_of (r : Resource) (b i : String) (st : BuildSt)
    (k : String) (h : containsKey st.links k = true) :
    containsKey (addResourceVariable r b i st).links k = true :=
  containsKey_addLinkTo_of st.links i _ k h

theorem avIngredients_no_reexpand (d : GameData) (res : List (String × Resource))
    (dis : List String) (rid : String) (av : String → BuildSt → BuildSt) :
    ∀ (l : List String) (st : BuildSt),
      (∀ ing ∈ l, ∀ c ∈ d.getItemCreators ing dis, containsKey st.links c = true) →
      avIngredients d res dis rid av l st
        = avIngredients d res dis rid (fun _ s => s) l st := by
  intro l
  induction l with
  | nil => intro st _; rfl
  | cons ing rest ih =>
    intro st h
    unfold avIngredients
    cases hres : lookupA res ing with
    | none =>
      simp only
      have hkeyed : ∀ c ∈ d.getItemCreators ing dis, containsKey st.links c = true :=
        h ing (List.mem_cons_self ing rest)
      rw [avChildren_no_recursion rid ing av (d.getItemCreators ing dis) st hkeyed]
      exact ih _ (fun ing2 hing2 c hc =>
        avChildren_id_keys_mono rid ing _ st c
          (h ing2 (List.mem_cons_of_mem ing hing2) c hc))
    | some resource =>
      simp only
      have hkeyed : ∀ c ∈ d.getItemCreators ing dis,
          containsKey (addResourceVariable resource rid ing st).links c = true :=
        fun c hc => containsKey_addResource_of resource rid ing st c
          (h ing (List.mem_cons_self ing rest) c hc)
      rw [avChildren_no_recursion rid ing av (d.getItemCreators ing dis) _ hkeyed]
      exact ih _ (fun ing2 hing2 c hc =>
        avChildren_id_keys_mono rid ing _ _ c
          (containsKey_addResource_of resource rid ing st c
            (h ing2 (List.mem_cons_of_mem ing hing2) c hc)))

/-- C8 amended: the guard does prevent re-expansion through recursion — when
every creator of every ingredient of `recipe_id` is already an edge-source
key, `add_variables` only adds the direct ingredient/resource edges of
`recipe_id` and performs no recursive expansion at all (the recursive call is
replaced by the identity).  The claim's conclusion fails only through the
top-level queue: `recipes_to_add` receives a producer once per target it
creates, so such a producer is expanded once per queue entry (see the
counterexample). -/
theorem addVariables_no_reexpand (d : GameData) (res : List (String × Resource))
    (dis : List String) (fuel : Nat) (rid : String) (st : BuildSt)
    (h : ∀ ing ∈ d.getIngredients rid, ∀ c ∈ d.getItemCreators ing dis,
      containsKey st.links c = true) :
    addVariables d res dis (fuel + 1) rid st
      = avIngredients d res dis rid (fun _ s => s) (d.getIngredients rid) st := by
  unfold addVariables
  exact avIngredients_no_reexpand d res dis rid _ (d.getIngredients rid) st h

def x8RecipeB : Recipe :=
  ⟨"B", "Recipe_B", false, 2, false, [⟨"Desc_A", 1⟩], [⟨"Desc_B", 1⟩], []⟩

def x8Data : GameData :=
  ⟨[("Recipe_A", wRecipeA), ("Recipe_B", x8RecipeB)],
   [("Desc_A", ⟨"A item"⟩), ("Desc_B", ⟨"B item"⟩), ("Desc_Ore", ⟨"Ore"⟩)],
   [("Desc_Ore", ⟨"Ore"⟩)]⟩

def x8St : BuildSt := ⟨⟨[], []⟩, [("Recipe_A", [])]⟩

/-- Witness for `addVariables_no_reexpand`: `Recipe_B`'s only ingredient is
created by `Recipe_A`, which is already an edge-source key. -/
theorem addVariables_no_reexpand_witness :
    (∀ ing ∈ x8Data.getIngredients "Recipe_B",
      ∀ c ∈ x8Data.getItemCreators ing [], containsKey x8St.links c = true) ∧
    addVariables x8Data wRes [] 1 "Recipe_B" x8St
      = avIngredients x8Data wRes [] "Recipe_B" (fun _ s => s)
          (x8Data.getIngredients "Recipe_B") x8St :=
  ⟨by decide, addVariables_no_reexpand x8Data wRes [] 0 "Recipe_B" x8St (by decide)⟩

/-! ### C9: the returned factory is clean -/

theorem mem_eraseA {α : Type} {l : List (String × α)} {key k : String} {v : α} :
    (k, v) ∈ eraseA l key ↔ (k, v) ∈ l ∧ ¬ k = key := by
  unfold eraseA
  rw [List.mem_filter]
  simp

theorem lookupA_eq_of_mem_nodup {α : Type} {l : List (String × α)} {k : String} {v : α}
    (hnd : (l.map Prod.fst).Nodup) (h : (k, v) ∈ l) : lookupA l k = some v := by
  induction l with
  | nil => cases h
  | cons kv rest ih =>
    rw [List.map_cons, List.nodup_cons] at hnd
    cases h with
    | head => simp [lookupA]
    | tail _ h =>
      have hk : ¬ kv.1 = k := by
        intro he
        apply hnd.1
        rw [he]
        exact List.mem_map.mpr ⟨(k, v), h, rfl⟩
      simp [lookupA, hk, ih hnd.2 h]

theorem lookupA_modifyA_self {α : Type} (l : List (String × α)) (k : String) (f : α → α) :
    lookupA (modifyA l k f) k = (lookupA l k).map f := by
  induction l with
  | nil => rfl
  | cons kv rest ih =>
    unfold modifyA at ih ⊢
    rw [List.map_cons]
    by_cases hk : kv.1 = k
    · rw [if_pos hk]
      simp [lookupA, hk]
    · rw [if_neg hk]
      simp only [lookupA, hk, if_false]
      exact ih

theorem mem_modifyA_ne {α : Type} {l : List (String × α)} {k k2 : String} {f : α → α}
    {w : α} (hne : ¬ k2 = k) : (k2, w) ∈ modifyA l k f ↔ (k2, w) ∈ l := by
  unfold modifyA
  rw [List.mem_map]
  constructor
  · rintro ⟨kv, hkv, heq⟩
    by_cases hk : kv.1 = k
    · rw [if_pos hk] at heq
      injection heq with h1 h2
      exact absurd (h1.symm.trans hk) hne
    · rw [if_neg hk] at heq
      rw [← heq]
      exact hkv
  · intro h
    refine ⟨(k2, w), h, ?_⟩
    rw [if_neg hne]

theorem mem_modifyA_self {α : Type} {l : List (String × α)} {k : String} {f : α → α}
    {w : α} (h : (k, w) ∈ modifyA l k f) : ∃ w0, (k, w0) ∈ l ∧ w = f w0 := by
  unfold modifyA at h
  rw [List.mem_map] at h
  obtain ⟨kv, hkv, heq⟩ := h
  by_cases hk : kv.1 = k
  · rw [if_pos hk] at heq
    injection heq with h1 h2
    refine ⟨kv.2, ?_, h2.symm⟩
    rw [← hk]
    exact hkv
  · rw [if_neg hk] at heq
    rw [heq] at hk
    exact absurd rfl hk

theorem mem_eraseFold :
    ∀ (l m : List (String × ItemRate)) (k : String) (v : ItemRate),
      ((k, v) ∈ l.foldl
          (fun m kv => if qabs kv.2.rate ≤ eps then eraseA m kv.1 else m) m
        ↔ (k, v) ∈ m ∧ ∀ e ∈ l, e.1 = k → ¬ qabs e.2.rate ≤ eps) := by
  intro l
  induction l with
  | nil =>
    intro m k v
    simp
  | cons e rest ih =>
    intro m k v
    simp only [List.foldl_cons]
    by_cases hsmall : qabs e.2.rate ≤ eps
    · rw [if_pos hsmall, ih]
      constructor
      · rintro ⟨hm, hrest⟩
        rw [mem_eraseA] at hm
        refine ⟨hm.1, ?_⟩
        intro e2 he2 hk
        cases he2 with
        | head => exact absurd hk.symm hm.2
        | tail _ he2 => exact hrest e2 he2 hk
      · rintro ⟨hm, hall⟩
        refine ⟨mem_eraseA.mpr ⟨hm, ?_⟩, ?_⟩
        · intro hke
          exact hall e (List.mem_cons_self e rest) hke.symm hsmall
        · intro e2 he2 hk
          exact hall e2 (List.mem_cons_of_mem e he2) hk
    · rw [if_neg hsmall, ih]
      constructor
      · rintro ⟨hm, hrest⟩
        refine ⟨hm, ?_⟩
        intro e2 he2 hk
        cases he2 with
        | head => exact hsmall
        | tail _ he2 => exact hrest e2 he2 hk
      · rintro ⟨hm, hall⟩
        exact ⟨hm, fun e2 he2 hk => hall e2 (List.mem_cons_of_mem e he2) hk⟩

theorem cleanNode_self_inputs {snap : Node} {kv : String × ItemRate}
    (h : kv ∈ (cleanNode snap snap).inputs) : ¬ qabs kv.2.rate ≤ eps := by
  obtain ⟨k, v⟩ := kv
  unfold cleanNode at h
  simp only at h
  rw [mem_eraseFold] at h
  exact h.2 (k, v) h.1 rfl

theorem cleanNode_self_outputs {snap : Node} {kv : String × ItemRate}
    (h : kv ∈ (cleanNode snap snap).outputs) : ¬ qabs kv.2.rate ≤ eps := by
  obtain ⟨k, v⟩ := kv
  unfold cleanNode at h
  simp only at h
  rw [mem_eraseFold] at h
  exact h.2 (k, v) h.1 rfl

/-! Key uniqueness of the factory's node map. -/

theorem modifyA_keys {α : Type} (l : List (String × α)) (k : String) (f : α → α) :
    (modifyA l k f).map Prod.fst = l.map Prod.fst := by
  unfold modifyA
  rw [List.map_map]
  congr 1
  funext kv
  by_cases hk : kv.1 = k <;> simp [hk]

theorem insertA_keys {α : Type} (k : String) (v : α) :
    ∀ (l : List (String × α)),
      (insertA l k v).map Prod.fst
        = if k ∈ l.map Prod.fst then l.map Prod.fst else l.map Prod.fst ++ [k] := by
  intro l
  induction l with
  | nil => simp [insertA]
  | cons kv rest ih =>
    unfold insertA
    by_cases hk : kv.1 = k
    · rw [if_pos hk]
      simp [hk]
    · rw [if_neg hk]
      rw [List.map_cons, ih, List.map_cons]
      by_cases hmem : k ∈ rest.map Prod.fst
      · rw [if_pos hmem, if_pos (List.mem_cons_of_mem _ hmem)]
      · rw [if_neg hmem, if_neg ?_]
        · rfl
        · intro hc
          cases hc with
          | head => exact hk rfl
          | tail _ hc => exact hmem hc

theorem insertA_keys_nodup {α : Type} {l : List (String × α)} {k : String} {v : α}
    (h : (l.map Prod.fst).Nodup) : ((insertA l k v).map Prod.fst).Nodup := by
  rw [insertA_keys]
  by_cases hmem : k ∈ l.map Prod.fst
  · simpa [hmem] using h
  · simp only [hmem, if_false]
    rw [List.nodup_append]
    exact ⟨h, List.nodup_singleton k, by simpa [List.disjoint_singleton] using hmem⟩

theorem eraseA_keys_nodup {α : Type} {l : List (String × α)} {k : String}
    (h : (l.map Prod.fst).Nodup) : ((eraseA l k).map Prod.fst).Nodup := by
  unfold eraseA
  exact h.sublist (List.Sublist.map Prod.fst (List.filter_sublist l))

theorem addNode_nodup {f : Factory} {nid name : String} {t : NodeType}
    (h : (f.nodes.map Prod.fst).Nodup) :
    (((f.addNode nid name t).nodes).map Prod.fst).Nodup := insertA_keys_nodup h

theorem addNodeInput_nodup {f : Factory} {nid src : String} {ir : ItemRate}
    (h : (f.nodes.map Prod.fst).Nodup) :
    (((f.addNodeInput nid src ir).nodes).map Prod.fst).Nodup := by
  unfold Factory.addNodeInput
  rw [show ((⟨modifyA f.nodes nid _⟩ : Factory)).nodes = modifyA f.nodes nid _ from rfl,
    modifyA_keys]
  exact h

theorem addNodeOutput_nodup {f : Factory} {nid dest : String} {ir : ItemRate}
    (h : (f.nodes.map Prod.fst).Nodup) :
    (((f.addNodeOutput nid dest ir).nodes).map Prod.fst).Nodup := by
  unfold Factory.addNodeOutput
  rw [show ((⟨modifyA f.nodes nid _⟩ : Factory)).nodes = modifyA f.nodes nid _ from rfl,
    modifyA_keys]
  exact h

theorem recordEdge_nodup {d : GameData} {sol : Nat → ℚ} {nid : String} {link : Link}
    {f : Factory} (h : (f.nodes.map Prod.fst).Nodup) :
    (((recordEdge d sol nid link f).nodes).map Prod.fst).Nodup := by
  unfold recordEdge
  apply addNodeInput_nodup
  by_cases hc : containsKey (f.addNodeOutput nid link.destination
      ⟨getItemNameD d link.item, nodeDisplayName d link.destination, sol link.varId,
        getUnderclock d nid link.item (sol link.varId)⟩).nodes link.destination
  · simp only [hc, if_true]
    exact addNodeOutput_nodup h
  · simp only [hc, Bool.false_eq_true, if_false]
    exact addNode_nodup (addNodeOutput_nodup h)

theorem recordEdges_nodup {d : GameData} {sol : Nat → ℚ}
    (ls : List (String × List Link)) (f : Factory)
    (h : (f.nodes.map Prod.fst).Nodup) :
    (((recordEdges d sol ls f).nodes).map Prod.fst).Nodup := by
  unfold recordEdges
  induction ls generalizing f with
  | nil => exact h
  | cons kv rest ih =>
    simp only [List.foldl_cons]
    apply ih
    generalize f = g at h ⊢
    induction kv.2 generalizing g with
    | nil => exact h
    | cons link lrest ih2 =>
      simp only [List.foldl_cons]
      exact ih2 _ (recordEdge_nodup h)

theorem buildNodes_nodup (d : GameData) (targets : List (String × ℚ))
    (ls : List (String × List Link)) :
    (((buildNodes d targets ls).nodes).map Prod.fst).Nodup := by
  unfold buildNodes
  have main : ∀ (L : List (String × List Link)) (f : Factory),
      (f.nodes.map Prod.fst).Nodup →
      (((L.foldl (fun f kv =>
          if strStartsWith kv.1 "Desc_" then
            if containsKey targets kv.1 then f.addNode kv.1 (getItemNameD d kv.1) NodeType.output
            else f.addNode kv.1 (getItemNameD d kv.1) NodeType.input
          else f.addNode kv.1 (getRecipeNameD d kv.1) NodeType.production) f)).nodes.map
        Prod.fst).Nodup := by
    intro L
    induction L with
    | nil => intro f h; exact h
    | cons kv rest ih =>
      intro f h
      simp only [List.foldl_cons]
      apply ih
      by_cases hdesc : strStartsWith kv.1 "Desc_"
      · by_cases htar : containsKey targets kv.1
        · simp only [hdesc, htar, if_true]
          exact addNode_nodup h
        · simp only [hdesc, htar, if_true, Bool.false_eq_true, if_false]
          exact addNode_nodup h
      · simp only [hdesc, Bool.false_eq_true, if_false]
        exact addNode_nodup h
  exact main ls ⟨[]⟩ (by simp)

/-- Cleanliness of one node. -/
def CleanN (node : Node) : Prop :=
  (∀ kv ∈ node.inputs, ¬ qabs kv.2.rate ≤ eps) ∧
  (∀ kv ∈ node.outputs, ¬ qabs kv.2.rate ≤ eps) ∧
  ¬ (node.inputs = [] ∧ node.outputs = [])

theorem filterNodeStep_eq_none {acc : Factory} {key : String} {v : Node}
    (hlook : lookupA (modifyA acc.nodes key (cleanNode v)) key = none) :
    filterNodeStep acc key v = ⟨modifyA acc.nodes key (cleanNode v)⟩ := by
  unfold filterNodeStep
  rw [hlook]

theorem filterNodeStep_eq_erase {acc : Factory} {key : String} {v n : Node}
    (hlook : lookupA (modifyA acc.nodes key (cleanNode v)) key = some n)
    (hemp : n.inputs.isEmpty = true ∧ n.outputs.isEmpty = true) :
    filterNodeStep acc key v = ⟨eraseA (modifyA acc.nodes key (cleanNode v)) key⟩ := by
  unfold filterNodeStep
  rw [hlook]
  exact if_pos hemp

theorem filterNodeStep_eq_keep {acc : Factory} {key : String} {v n : Node}
    (hlook : lookupA (modifyA acc.nodes key (cleanNode v)) key = some n)
    (hemp : ¬ (n.inputs.isEmpty = true ∧ n.outputs.isEmpty = true)) :
    filterNodeStep acc key v = ⟨modifyA acc.nodes key (cleanNode v)⟩ := by
  unfold filterNodeStep
  rw [hlook]
  exact if_neg hemp

theorem filterFold_clean :
    ∀ (snap : List (String × Node)) (acc : Factory),
      (snap.map Prod.fst).Nodup →
      (acc.nodes.map Prod.fst).Nodup →
      (∀ k w, (k, w) ∈ acc.nodes →
        (CleanN w ∧ k ∉ snap.map Prod.fst) ∨ lookupA snap k = some w) →
      ∀ k w, (k, w) ∈ ((snap.foldl (fun a kv => filterNodeStep a kv.1 kv.2) acc)).nodes →
        CleanN w := by
  intro snap
  induction snap with
  | nil =>
    intro acc _ _ hinv k w hmem
    rcases hinv k w hmem with ⟨hclean, _⟩ | hlook
    · exact hclean
    · simp [lookupA] at hlook
  | cons kv rest ih =>
    obtain ⟨key, v⟩ := kv
    intro acc hsnd hand hinv
    rw [List.map_cons, List.nodup_cons] at hsnd
    simp only [List.foldl_cons]
    -- analyse one filterNodeStep
    have hstep : ∀ k w, (k, w) ∈ (filterNodeStep acc key v).nodes →
        (CleanN w ∧ k ∉ rest.map Prod.fst) ∨ lookupA rest k = some w := by
      intro k w hmem
      by_cases hk : k = key
      · subst hk
        cases hlook : lookupA (modifyA acc.nodes k (cleanNode v)) k with
        | none =>
          rw [filterNodeStep_eq_none hlook] at hmem
          rw [lookupA_modifyA_self] at hlook
          obtain ⟨w0, hw0mem, hw0⟩ := mem_modifyA_self hmem
          rw [lookupA_eq_of_mem_nodup hand hw0mem] at hlook
          cases hlook
        | some n =>
          by_cases hempty : n.inputs.isEmpty = true ∧ n.outputs.isEmpty = true
          · rw [filterNodeStep_eq_erase hlook hempty] at hmem
            rw [show ((⟨eraseA (modifyA acc.nodes k (cleanNode v)) k⟩ : Factory)).nodes
              = eraseA (modifyA acc.nodes k (cleanNode v)) k from rfl, mem_eraseA] at hmem
            exact absurd rfl hmem.2
          · rw [filterNodeStep_eq_keep hlook hempty] at hmem
            obtain ⟨w0, hw0mem, hw0⟩ := mem_modifyA_self hmem
            have hlive : lookupA acc.nodes k = some w0 := lookupA_eq_of_mem_nodup hand hw0mem
            have hv0 : w0 = v := by
              rcases hinv k w0 hw0mem with ⟨_, hnot⟩ | hlk
              · exact absurd (List.mem_cons_self k (rest.map Prod.fst)) hnot
              · rw [lookupA] at hlk
                simp at hlk
                exact hlk.symm
            have hn : n = w := by
              rw [lookupA_modifyA_self, hlive] at hlook
              have hlook2 : some (cleanNode v w0) = some n := hlook
              injection hlook2 with hlook3
              rw [hw0, ← hlook3]
            refine Or.inl ⟨⟨?_, ?_, ?_⟩, hsnd.1⟩
            · intro kv2 hkv2
              rw [hw0, hv0] at hkv2
              exact cleanNode_self_inputs hkv2
            · intro kv2 hkv2
              rw [hw0, hv0] at hkv2
              exact cleanNode_self_outputs hkv2
            · rintro ⟨hin, hout⟩
              apply hempty
              rw [hn, hin, hout]
              exact ⟨rfl, rfl⟩
      · -- untouched key
        have hback : (k, w) ∈ acc.nodes := by
          cases hlook : lookupA (modifyA acc.nodes key (cleanNode v)) key with
          | none =>
            rw [filterNodeStep_eq_none hlook] at hmem
            exact (mem_modifyA_ne hk).mp hmem
          | some n =>
            by_cases hempty : n.inputs.isEmpty = true ∧ n.outputs.isEmpty = true
            · rw [filterNodeStep_eq_erase hlook hempty] at hmem
              rw [show ((⟨eraseA (modifyA acc.nodes key (cleanNode v)) key⟩ : Factory)).nodes
                = eraseA (modifyA acc.nodes key (cleanNode v)) key from rfl,
                mem_eraseA] at hmem
              exact (mem_modifyA_ne hk).mp hmem.1
            · rw [filterNodeStep_eq_keep hlook hempty] at hmem
              exact (mem_modifyA_ne hk).mp hmem
        rcases hinv k w hback with ⟨hclean, hnot⟩ | hlk
        · exact Or.inl ⟨hclean, fun hmem2 => hnot (List.mem_cons_of_mem _ hmem2)⟩
        · right
          rw [lookupA] at hlk
          simp only [show ¬((key, v) : String × Node).1 = k from fun he => hk he.symm,
            if_false] at hlk
          exact hlk
    have hnodup2 : (((filterNodeStep acc key v).nodes).map Prod.fst).Nodup := by
      cases hlook : lookupA (modifyA acc.nodes key (cleanNode v)) key with
      | none =>
        rw [filterNodeStep_eq_none hlook]
        show ((modifyA acc.nodes key (cleanNode v)).map Prod.fst).Nodup
        rw [modifyA_keys]
        exact hand
      | some n =>
        by_cases hempty : n.inputs.isEmpty = true ∧ n.outputs.isEmpty = true
        · rw [filterNodeStep_eq_erase hlook hempty]
          show (((eraseA (modifyA acc.nodes key (cleanNode v)) key)).map Prod.fst).Nodup
          apply eraseA_keys_nodup
          rw [modifyA_keys]
          exact hand
        · rw [filterNodeStep_eq_keep hlook hempty]
          show ((modifyA acc.nodes key (cleanNode v)).map Prod.fst).Nodup
          rw [modifyA_keys]
          exact hand
    exact ih (filterNodeStep acc key v) hsnd.2 hnodup2 hstep

theorem filterPhase_clean (f : Factory) (h : (f.nodes.map Prod.fst).Nodup) :
    ∀ k w, (k, w) ∈ (filterPhase f).nodes → CleanN w := by
  unfold filterPhase
  exact filterFold_clean f.nodes f h h
    (fun k w hm => Or.inr (lookupA_eq_of_mem_nodup h hm))

/-- C9: in the Factory returned by `solve`, no retained node has an input or
output entry whose rate magnitude is `<= 1e-5`, and no retained node has both
an empty input map and an empty output map. -/
theorem solve_factory_clean (s : Solver) (sol : Nat → ℚ) (f : Factory)
    (h : solveFactory s sol = Except.ok f) :
    ∀ nid node, (nid, node) ∈ f.nodes →
      (∀ kv ∈ node.inputs, ¬ qabs kv.2.rate ≤ 1 / 100000) ∧
      (∀ kv ∈ node.outputs, ¬ qabs kv.2.rate ≤ 1 / 100000) ∧
      ¬ (node.inputs = [] ∧ node.outputs = []) := by
  unfold solveFactory at h
  cases hsp : solveProblem s with
  | error e => rw [hsp] at h; cases h
  | ok pr =>
    obtain ⟨st, rta⟩ := pr
    rw [hsp] at h
    simp only [Except.ok.injEq] at h
    subst h
    intro nid node hmem
    have hnodup : (((recordEdges s.data sol st.links
        (buildNodes s.data s.targets st.links)).nodes).map Prod.fst).Nodup :=
      recordEdges_nodup st.links _ (buildNodes_nodup s.data s.targets st.links)
    have hc := filterPhase_clean _ hnodup nid node hmem
    unfold CleanN at hc
    rw [eps_eq] at hc
    exact hc

def c9F : Factory := getOk ⟨[]⟩ (solveFactory xSolver (fun _ => 1))

/-- Witness for `solve_factory_clean` on the concrete scenario with the
all-ones LP answer. -/
theorem solve_factory_clean_witness :
    solveFactory xSolver (fun _ => 1) = Except.ok c9F ∧
    ∀ nid node, (nid, node) ∈ c9F.nodes →
      (∀ kv ∈ node.inputs, ¬ qabs kv.2.rate ≤ 1 / 100000) ∧
      (∀ kv ∈ node.outputs, ¬ qabs kv.2.rate ≤ 1 / 100000) ∧
      ¬ (node.inputs = [] ∧ node.outputs = []) :=
  ⟨rfl, solve_factory_clean xSolver (fun _ => 1) c9F rfl⟩

/-! ### C7: node types in the extracted factory -/

/-- The typing rule of the node-creation loop (lines 277-288), applied to the
link-set keys (edge sources). -/
def nodeTypeFor (targets : List (String × ℚ)) (nid : String) : NodeType :=
  if strStartsWith nid "Desc_" then
    (if containsKey targets nid then NodeType.output else NodeType.input)
  else NodeType.production

/-- Counterexample to C7 as stated: in the concrete solve, the byproduct sink
item `"Desc_B"` (a `Desc_`-prefixed item id, not a requested target) appears
in the returned factory typed `Output`, not `Input`. -/
theorem byproduct_sink_typed_output_counterexample :
    (lookupA c9F.nodes "Desc_B").map Node.nodeType = some NodeType.output ∧
    containsKey xSolver.targets "Desc_B" = false ∧
    strStartsWith "Desc_B" "Desc_" = true := by
  refine ⟨?_, ?_, ?_⟩ <;> decide

theorem containsKey_of_mem {α : Type} {l : List (String × α)} {kv : String × α}
    (h : kv ∈ l) : containsKey l kv.1 = true := by
  induction l with
  | nil => cases h
  | cons a rest ih =>
    obtain ⟨k0, v0⟩ := a
    unfold containsKey lookupA
    by_cases hk : k0 = kv.1
    · simp [hk]
    · simp only [hk, if_false]
      cases h with
      | head => exact absurd rfl hk
      | tail _ h => exact ih h

theorem containsKey_iff_mem_keys {α : Type} {l : List (String × α)} {k : String} :
    containsKey l k = true ↔ k ∈ l.map Prod.fst := by
  induction l with
  | nil => simp [containsKey, lookupA]
  | cons kv rest ih =>
    obtain ⟨k0, v0⟩ := kv
    unfold containsKey lookupA
    by_cases hk : k0 = k
    · simp [hk]
    · simp only [hk, if_false, List.map_cons]
      unfold containsKey at ih
      rw [ih]
      constructor
      · exact fun h => List.mem_cons_of_mem _ h
      · intro h
        cases h with
        | head => exact absurd rfl hk
        | tail _ h => exact h

theorem mem_insertA {α : Type} {l : List (String × α)} {k2 : String} {v : α}
    {k : String} {w : α} (h : (k, w) ∈ insertA l k2 v) :
    (k, w) ∈ l ∨ (k = k2 ∧ w = v) := by
  induction l with
  | nil =>
    simp only [insertA] at h
    cases h with
    | head => exact Or.inr ⟨rfl, rfl⟩
    | tail _ h => cases h
  | cons kv rest ih =>
    obtain ⟨k0, v0⟩ := kv
    unfold insertA at h
    by_cases hk : k0 = k2
    · rw [if_pos hk] at h
      cases h with
      | head => exact Or.inr ⟨rfl, rfl⟩
      | tail _ h => exact Or.inl (List.mem_cons_of_mem _ h)
    · rw [if_neg hk] at h
      cases h with
      | head => exact Or.inl (List.mem_cons_self _ _)
      | tail _ h =>
        rcases ih h with h2 | h2
        · exact Or.inl (List.mem_cons_of_mem _ h2)
        · exact Or.inr h2

theorem buildNodes_types (d : GameData) (targets : List (String × ℚ))
    (ls : List (String × List Link)) :
    ∀ nid node, (nid, node) ∈ (buildNodes d targets ls).nodes →
      node.nodeType = nodeTypeFor targets nid ∧ containsKey ls nid = true := by
  unfold buildNodes
  have main : ∀ (L : List (String × List Link)) (f : Factory),
      (∀ kv ∈ L, containsKey ls kv.1 = true) →
      (∀ nid node, (nid, node) ∈ f.nodes →
        node.nodeType = nodeTypeFor targets nid ∧ containsKey ls nid = true) →
      ∀ nid node, (nid, node) ∈ ((L.foldl (fun f kv =>
          if strStartsWith kv.1 "Desc_" then
            if containsKey targets kv.1 then f.addNode kv.1 (getItemNameD d kv.1) NodeType.output
            else f.addNode kv.1 (getItemNameD d kv.1) NodeType.input
          else f.addNode kv.1 (getRecipeNameD d kv.1) NodeType.production) f)).nodes →
        node.nodeType = nodeTypeFor targets nid ∧ containsKey ls nid = true := by
    intro L
    induction L with
    | nil => intro f _ hinv; exact hinv
    | cons kv rest ih =>
      intro f hkeys hinv
      simp only [List.foldl_cons]
      apply ih _ (fun q hq => hkeys q (List.mem_cons_of_mem kv hq))
      intro nid node hmem
      have hstep : ∀ (t : NodeType) (nm : String),
          t = nodeTypeFor targets kv.1 →
          (nid, node) ∈ (f.addNode kv.1 nm t).nodes →
          node.nodeType = nodeTypeFor targets nid ∧ containsKey ls nid = true := by
        intro t nm ht hmem2
        rcases mem_insertA hmem2 with hold | ⟨hk, hw⟩
        · exact hinv nid node hold
        · subst hk
          rw [hw, ht]
          exact ⟨rfl, hkeys kv (List.mem_cons_self kv rest)⟩
      by_cases hdesc : strStartsWith kv.1 "Desc_"
      · by_cases htar : containsKey targets kv.1
        · rw [if_pos hdesc, if_pos htar] at hmem
          exact hstep NodeType.output _ (by simp [nodeTypeFor, hdesc, htar]) hmem
        · rw [if_pos hdesc, if_neg htar] at hmem
          exact hstep NodeType.input _ (by simp [nodeTypeFor, hdesc, htar]) hmem
      · rw [if_neg hdesc] at hmem
        exact hstep NodeType.production _ (by simp [nodeTypeFor, hdesc]) hmem
  exact main ls ⟨[]⟩ (fun kv hkv => containsKey_of_mem hkv) (fun nid node h => by cases h)

/-- Invariant carried through edge recording: link-set keys remain nodes, and
every node follows the rule `key -> loop rule, non-key -> Output`. -/
def TypedInv (ls : List (String × List Link)) (targets : List (String × ℚ))
    (f : Factory) : Prop :=
  (∀ k, containsKey ls k = true → containsKey f.nodes k = true) ∧
  (∀ nid node, (nid, node) ∈ f.nodes →
    node.nodeType
      = if containsKey ls nid then nodeTypeFor targets nid else NodeType.output)

theorem typedInv_modify {ls targets} {f : Factory} (h : TypedInv ls targets f)
    (key : String) (g : Node → Node) (hg : ∀ x, (g x).nodeType = x.nodeType) :
    TypedInv ls targets ⟨modifyA f.nodes key g⟩ := by
  constructor
  · intro k hk
    rw [containsKey_iff_mem_keys]
    rw [show ((⟨modifyA f.nodes key g⟩ : Factory)).nodes = modifyA f.nodes key g from rfl,
      modifyA_keys]
    exact containsKey_iff_mem_keys.mp (h.1 k hk)
  · intro nid node hmem
    by_cases hk : nid = key
    · subst hk
      obtain ⟨w0, hw0, hweq⟩ := mem_modifyA_self hmem
      rw [hweq, hg]
      exact h.2 nid w0 hw0
    · exact h.2 nid node ((mem_modifyA_ne hk).mp hmem)

theorem recordEdge_typedInv {ls targets} (d : GameData) (sol : Nat → ℚ)
    (nid : String) (link : Link) {f : Factory} (h : TypedInv ls targets f) :
    TypedInv ls targets (recordEdge d sol nid link f) := by
  unfold recordEdge
  have h1 : TypedInv ls targets (f.addNodeOutput nid link.destination
      ⟨getItemNameD d link.item, nodeDisplayName d link.destination, sol link.varId,
        getUnderclock d nid link.item (sol link.varId)⟩) :=
    typedInv_modify h nid _ (fun x => rfl)
  by_cases hc : containsKey (f.addNodeOutput nid link.destination
      ⟨getItemNameD d link.item, nodeDisplayName d link.destination, sol link.varId,
        getUnderclock d nid link.item (sol link.varId)⟩).nodes link.destination
  · simp only [hc, if_true]
    exact typedInv_modify h1 link.destination _ (fun x => rfl)
  · simp only [hc, Bool.false_eq_true, if_false]
    have hlsfalse : containsKey ls link.destination = false := by
      cases hcc : containsKey ls link.destination
      · rfl
      · exact absurd (h1.1 link.destination hcc) (by simpa using hc)
    have h2 : TypedInv ls targets ((f.addNodeOutput nid link.destination
        ⟨getItemNameD d link.item, nodeDisplayName d link.destination, sol link.varId,
          getUnderclock d nid link.item (sol link.varId)⟩).addNode link.destination
        (getItemNameD d link.destination) NodeType.output) := by
      constructor
      · intro k hk
        rw [containsKey_iff_mem_keys]
        unfold Factory.addNode
        rw [show ∀ (fc : Factory) (a : String) (n : Node),
            ((⟨insertA fc.nodes a n⟩ : Factory)).nodes = insertA fc.nodes a n
          from fun _ _ _ => rfl, insertA_keys]
        have hmem := containsKey_iff_mem_keys.mp (h1.1 k hk)
        by_cases hdm : link.destination ∈ ((f.addNodeOutput nid link.destination
            ⟨getItemNameD d link.item, nodeDisplayName d link.destination, sol link.varId,
              getUnderclock d nid link.item (sol link.varId)⟩).nodes.map Prod.fst)
        · rw [if_pos hdm]; exact hmem
        · rw [if_neg hdm]; exact List.mem_append_left _ hmem
      · intro nid2 node2 hmem2
        rcases mem_insertA hmem2 with hold | ⟨hk, hw⟩
        · exact h1.2 nid2 node2 hold
        · subst hk
          rw [hw]
          rw [hlsfalse]
          rfl
    exact typedInv_modify h2 link.destination _ (fun x => rfl)

theorem recordEdges_typedInv {ls targets} (d : GameData) (sol : Nat → ℚ)
    (buckets : List (String × List Link)) (f : Factory)
    (h : TypedInv ls targets f) :
    TypedInv ls targets (recordEdges d sol buckets f) := by
  unfold recordEdges
  induction buckets generalizing f with
  | nil => exact h
  | cons kv rest ih =>
    simp only [List.foldl_cons]
    apply ih
    generalize f = g at h ⊢
    induction kv.2 generalizing g with
    | nil => exact h
    | cons link lrest ih2 =>
      simp only [List.foldl_cons]
      exact ih2 _ (recordEdge_typedInv d sol kv.1 link h)

theorem containsKey_insertA_self {α : Type} (l : List (String × α)) (k : String) (v : α) :
    containsKey (insertA l k v) k = true := by
  rw [containsKey_iff_mem_keys, insertA_keys]
  by_cases hmem : k ∈ l.map Prod.fst
  · rw [if_pos hmem]; exact hmem
  · rw [if_neg hmem]; exact List.mem_append_right _ (List.mem_singleton.mpr rfl)

theorem containsKey_insertA_mono {α : Type} {l : List (String × α)} {k k2 : String}
    {v : α} (h : containsKey l k = true) : containsKey (insertA l k2 v) k = true := by
  rw [containsKey_iff_mem_keys, insertA_keys]
  rw [containsKey_iff_mem_keys] at h
  by_cases hmem : k2 ∈ l.map Prod.fst
  · rw [if_pos hmem]; exact h
  · rw [if_neg hmem]; exact List.mem_append_left _ h

theorem buildNodes_hasKeys (d : GameData) (targets : List (String × ℚ))
    (ls : List (String × List Link)) :
    ∀ k, containsKey ls k = true →
      containsKey (buildNodes d targets ls).nodes k = true := by
  unfold buildNodes
  have main : ∀ (L : List (String × List Link)) (f : Factory) (k : String),
      (k ∈ L.map Prod.fst ∨ containsKey f.nodes k = true) →
      containsKey ((L.foldl (fun f kv =>
          if strStartsWith kv.1 "Desc_" then
            if containsKey targets kv.1 then f.addNode kv.1 (getItemNameD d kv.1) NodeType.output
            else f.addNode kv.1 (getItemNameD d kv.1) NodeType.input
          else f.addNode kv.1 (getRecipeNameD d kv.1) NodeType.production) f)).nodes k
        = true := by
    intro L
    induction L with
    | nil =>
      intro f k h
      rcases h with h | h
      · cases h
      · exact h
    | cons kv rest ih =>
      intro f k h
      simp only [List.foldl_cons]
      have hstep : ∀ (g : Factory), containsKey g.nodes k = true ∨ k = kv.1 →
          containsKey ((if strStartsWith kv.1 "Desc_" then
            if containsKey targets kv.1 then g.addNode kv.1 (getItemNameD d kv.1) NodeType.output
            else g.addNode kv.1 (getItemNameD d kv.1) NodeType.input
          else g.addNode kv.1 (getRecipeNameD d kv.1) NodeType.production)).nodes k = true := by
        intro g hg
        have haddNode : ∀ (nm : String) (t : NodeType),
            containsKey ((g.addNode kv.1 nm t)).nodes k = true := by
          intro nm t
          rcases hg with hg | hg
          · exact containsKey_insertA_mono hg
          · rw [hg]; exact containsKey_insertA_self _ _ _
        by_cases hdesc : strStartsWith kv.1 "Desc_"
        · by_cases htar : containsKey targets kv.1
          · rw [if_pos hdesc, if_pos htar]; exact haddNode _ _
          · rw [if_pos hdesc, if_neg htar]; exact haddNode _ _
        · rw [if_neg hdesc]; exact haddNode _ _
      rcases h with h | h
      · rw [List.map_cons] at h
        cases h with
        | head => exact ih _ kv.1 (Or.inr (hstep f (Or.inr rfl)))
        | tail _ h => exact ih _ k (Or.inl h)
      · exact ih _ k (Or.inr (hstep f (Or.inl h)))
  intro k hk
  exact main ls ⟨[]⟩ k (Or.inl (containsKey_iff_mem_keys.mp hk))

theorem filterNodeStep_types {acc : Factory} {key : String} {v : Node} :
    ∀ k w, (k, w) ∈ (filterNodeStep acc key v).nodes →
      ∃ w0, (k, w0) ∈ acc.nodes ∧ w.nodeType = w0.nodeType := by
  intro k w hmem
  have hmod : (k, w) ∈ modifyA acc.nodes key (cleanNode v) →
      ∃ w0, (k, w0) ∈ acc.nodes ∧ w.nodeType = w0.nodeType := by
    intro hm
    by_cases hk : k = key
    · subst hk
      obtain ⟨w0, hw0, hweq⟩ := mem_modifyA_self hm
      exact ⟨w0, hw0, by rw [hweq]; rfl⟩
    · exact ⟨w, (mem_modifyA_ne hk).mp hm, rfl⟩
  cases hlook : lookupA (modifyA acc.nodes key (cleanNode v)) key with
  | none =>
    rw [filterNodeStep_eq_none hlook] at hmem
    exact hmod hmem
  | some n =>
    by_cases hempty : n.inputs.isEmpty = true ∧ n.outputs.isEmpty = true
    · rw [filterNodeStep_eq_erase hlook hempty] at hmem
      rw [show ((⟨eraseA (modifyA acc.nodes key (cleanNode v)) key⟩ : Factory)).nodes
        = eraseA (modifyA acc.nodes key (cleanNode v)) key from rfl, mem_eraseA] at hmem
      exact hmod hmem.1
    · rw [filterNodeStep_eq_keep hlook hempty] at hmem
      exact hmod hmem

theorem filterPhase_types (f : Factory) :
    ∀ k w, (k, w) ∈ (filterPhase f).nodes →
      ∃ w0, (k, w0) ∈ f.nodes ∧ w.nodeType = w0.nodeType := by
  unfold filterPhase
  have main : ∀ (snap : List (String × Node)) (acc : Factory),
      (∀ k w, (k, w) ∈ acc.nodes → ∃ w0, (k, w0) ∈ f.nodes ∧ w.nodeType = w0.nodeType) →
      ∀ k w, (k, w) ∈ ((snap.foldl (fun a kv => filterNodeStep a kv.1 kv.2) acc)).nodes →
        ∃ w0, (k, w0) ∈ f.nodes ∧ w.nodeType = w0.nodeType := by
    intro snap
    induction snap with
    | nil => intro acc hinv; exact hinv
    | cons kv rest ih =>
      intro acc hinv
      simp only [List.foldl_cons]
      apply ih
      intro k w hmem
      obtain ⟨w1, hw1, heq1⟩ := filterNodeStep_types k w hmem
      obtain ⟨w0, hw0, heq0⟩ := hinv k w1 hw1
      exact ⟨w0, hw0, heq1.trans heq0⟩
  exact main f.nodes f (fun k w h => ⟨w, h, rfl⟩)

/-- C7 amended: in the Factory returned by `solve`, every node whose id is a
link-set key (an edge source) follows the loop's rule — `Desc_`-prefixed ids
are `Input` unless a requested target (`Output`), recipe ids are
`Production`; but a node created only as an edge destination (never an edge
source, e.g. a byproduct sink item or a target output node) is always typed
`Output`, even when it is not a requested target. -/
theorem solve_node_types (s : Solver) (sol : Nat → ℚ) (st : BuildSt)
    (rta : List String) (f : Factory)
    (hsp : solveProblem s = Except.ok (st, rta))
    (h : solveFactory s sol = Except.ok f) :
    ∀ nid node, (nid, node) ∈ f.nodes →
      node.nodeType
        = if containsKey st.links nid then nodeTypeFor s.targets nid
          else NodeType.output := by
  unfold solveFactory at h
  rw [hsp] at h
  simp only [Except.ok.injEq] at h
  subst h
  intro nid node hmem
  obtain ⟨w0, hw0, heq⟩ := filterPhase_types _ nid node hmem
  have hbuild := buildNodes_types s.data s.targets st.links
  have hinv0 : TypedInv st.links s.targets (buildNodes s.data s.targets st.links) := by
    constructor
    · intro k hk
      exact buildNodes_hasKeys s.data s.targets st.links k hk
    · intro nid2 node2 hmem2
      obtain ⟨ht, hkey⟩ := hbuild nid2 node2 hmem2
      rw [ht, if_pos hkey]
  have hrec := recordEdges_typedInv s.data sol st.links _ hinv0
  rw [heq]
  exact hrec.2 nid w0 hw0

/-- Witness for `solve_node_types` on the concrete scenario. -/
theorem solve_node_types_witness :
    (solveProblem xSolver = Except.ok (c3St, c3Rta) ∧
      solveFactory xSolver (fun _ => 1) = Except.ok c9F) ∧
    ∀ nid node, (nid, node) ∈ c9F.nodes →
      node.nodeType
        = if containsKey c3St.links nid then nodeTypeFor xSolver.targets nid
          else NodeType.output :=
  ⟨⟨rfl, rfl⟩, solve_node_types xSolver (fun _ => 1) c3St c3Rta c9F rfl rfl⟩

/-! ### C6: zero-rate edges and the underclock division -/

def c6St : BuildSt := (getOk (emptyBuildSt, ([] : List String)) (solveProblem xSolver)).1

/-- The factory as it stands after the edge-recording loop (lines 289-301)
and before the cleanup loop, under the all-zero LP answer. -/
def c6Pre : Factory :=
  recordEdges xData (fun _ => 0) c6St.links (buildNodes xData xSolver.targets c6St.links)

/-- Counterexample to C6 as stated: with the all-zero LP answer, the output
entry `Recipe_R -> Desc_A` has rate `0`, its recorded underclock is the
result of running `get_underclock` at rate `0` — whose machine-count divisor
`ceil((0 * time) / (60 * amount))` is `0`, i.e. the division by zero is
performed — and the entry is removed only afterwards, by the cleanup loop
(the node disappears from the final factory).  The edge is not dropped
before the underclock computation. -/
theorem underclock_zero_rate_computed_counterexample :
    ((lookupA c6Pre.nodes "Recipe_R").bind
        (fun n => lookupA n.outputs "Desc_A")).map ItemRate.rate = some 0 ∧
    ((lookupA c6Pre.nodes "Recipe_R").bind
        (fun n => lookupA n.outputs "Desc_A")).map ItemRate.underclock
      = some (getUnderclock xData "Recipe_R" "Desc_A" 0) ∧
    machineCount xData "Recipe_R" "Desc_A" 0 = 0 ∧
    lookupA (filterPhase c6Pre).nodes "Recipe_R" = none := by
  refine ⟨rfl, rfl, ?_, rfl⟩
  unfold machineCount
  rw [show getRecipeD xData "Recipe_R" = xRecipeR from rfl,
    show productAmountOf xRecipeR "Desc_A" = 1 from rfl,
    show xRecipeR.time = 2 from rfl]
  norm_num

/-- C6 amended: the cleanup happens after (not before) the underclock
computation, but it removes every entry whose rate magnitude is
`<= 0.00001`; therefore in the Factory returned by `solve`, every retained
output entry has rate magnitude above the threshold, and for any rate above
the threshold (with the recipe present, positive cycle time and positive
product amount) the machine count `ceil(rate * time / (60 * amount))` is
nonzero — so no retained underclock value results from a division by a zero
machine count. -/
theorem solve_underclock_no_zero_machines (s : Solver) (sol : Nat → ℚ) (f : Factory)
    (h : solveFactory s sol = Except.ok f) :
    (∀ nid node, (nid, node) ∈ f.nodes →
      ∀ kv ∈ node.outputs, ¬ qabs kv.2.rate ≤ 1 / 100000) ∧
    (∀ (rid item : String) (rate : ℚ) (r : Recipe),
      lookupA s.data.recipes rid = some r →
      0 < r.time → 0 < productAmountOf r item → eps < rate →
      machineCount s.data rid item rate ≠ 0) := by
  constructor
  · unfold solveFactory at h
    cases hsp : solveProblem s with
    | error e => rw [hsp] at h; cases h
    | ok pr =>
      obtain ⟨st, rta⟩ := pr
      rw [hsp] at h
      simp only [Except.ok.injEq] at h
      subst h
      intro nid node hmem kv hkv
      have hnodup : (((recordEdges s.data sol st.links
          (buildNodes s.data s.targets st.links)).nodes).map Prod.fst).Nodup :=
        recordEdges_nodup st.links _ (buildNodes_nodup s.data s.targets st.links)
      have hc := filterPhase_clean _ hnodup nid node hmem
      unfold CleanN at hc
      rw [eps_eq] at hc
      exact hc.2.1 kv hkv
  · intro rid item rate r hlook htime hamount hrate
    have hrec : getRecipeD s.data rid = r := by
      unfold getRecipeD
      rw [hlook]
      rfl
    unfold machineCount
    rw [hrec]
    have hepspos : (0 : ℚ) < eps := by
      rw [eps_eq]
      norm_num
    have hratepos : (0 : ℚ) < rate := lt_trans hepspos hrate
    have hq : 0 < (rate * r.time) / (60 * productAmountOf r item) :=
      div_pos (mul_pos hratepos htime)
        (mul_pos (by norm_num) hamount)
    intro hzero
    have hpos := Int.ceil_pos.mpr hq
    omega

/-- Witness for `solve_underclock_no_zero_machines`, instantiating the
machine-count conjunct at a concrete retained edge. -/
theorem solve_underclock_no_zero_machines_witness :
    solveFactory xSolver (fun _ => 1) = Except.ok c9F ∧
    ((∀ nid node, (nid, node) ∈ c9F.nodes →
      ∀ kv ∈ node.outputs, ¬ qabs kv.2.rate ≤ 1 / 100000) ∧
    (∀ (rid item : String) (rate : ℚ) (r : Recipe),
      lookupA xSolver.data.recipes rid = some r →
      0 < r.time → 0 < productAmountOf r item → eps < rate →
      machineCount xSolver.data rid item rate ≠ 0)) ∧
    machineCount xSolver.data "Recipe_R" "Desc_A" 1 ≠ 0 :=
  ⟨rfl, solve_underclock_no_zero_machines xSolver (fun _ => 1) c9F rfl,
   (solve_underclock_no_zero_machines xSolver (fun _ => 1) c9F rfl).2
     "Recipe_R" "Desc_A" 1 xRecipeR (by decide) (by decide) (by decide) (by decide)⟩

/-! ### C10: `add_resource` stores a zero objective weight -/

theorem lookupA_insertA_self {α : Type} (l : List (String × α)) (k : String) (v : α) :
    lookupA (insertA l k v) k = some v := by
  induction l with
  | nil => simp [insertA, lookupA]
  | cons kv rest ih =>
    by_cases hk : kv.1 = k
    · simp [insertA, hk, lookupA]
    · simp [insertA, hk, lookupA, ih]

/-- C10: `add_resource(resource, amount)` stores a `Resource` with limit
`amount` and objective weight `0.0`; consequently the LP variable that
`add_resource_variable` registers for that stored resource carries objective
weight `0` (and bounds `[0, amount]`), so it contributes zero cost per unit
flow to the objective of the subsequent solve. -/
theorem addResource_zero_weight (s : Solver) (r : String) (a : ℚ) :
    lookupA (s.addResource r a).resources r = some ⟨a, 0⟩ ∧
    ∀ (st : BuildSt) (dest : String),
      (addResourceVariable ⟨a, 0⟩ dest r st).problem.vars
        = st.problem.vars ++ [⟨0, 0, a⟩] := by
  refine ⟨?_, fun st dest => rfl⟩
  exact lookupA_insertA_self s.resources r ⟨a, 0⟩

end Foundation
